import Mathlib

/-!
# Polynomial arithmetic over the scalar field (`ecc/bls12-377/fr/polynomial`)

A shallow embedding of `polynomial.go`.  A Go `Polynomial` is a slice of field
elements, and every method takes `*Polynomial` operands, so the receiver may
be the very variable that is also an operand and two slices may share one
backing array.  The embedding therefore keeps an explicit memory:

* a `Slice` is a Go slice header (backing array, length); no slicing
  expression occurs in the package, so the offset is always zero and the
  capacity is the length of the backing array;
* a `Mem` holds the `Polynomial` variables (a `*Polynomial` is the name of a
  variable) and the backing arrays;
* a procedure maps a `Mem` to an `Outcome`, which is either a normal return
  or a run-time panic, in both cases with the memory reached.

The field `F` is the external scalar field `fr.Element`; it is a parameter.
-/

namespace polynomial

/-- Slice header of a `Polynomial` value (`type Polynomial []fr.Element`). -/
structure Slice where
  /-- Identifier of the backing array. -/
  arr : Nat
  /-- Length of the slice, `len(p)`. -/
  len : Nat
deriving DecidableEq

/-- Memory: the `Polynomial` variables, the backing arrays and the first
array identifier that has not been allocated yet. -/
structure Mem (F : Type) where
  vars : Nat → Slice
  heap : Nat → List F
  next : Nat

/-- Result of running a procedure: normal return or panic, with the memory
reached at that point. -/
inductive Outcome (F : Type) where
  | ok (m : Mem F)
  | panic (m : Mem F)

variable {F : Type}

/-- Memory in which the run ended. -/
def Outcome.mem : Outcome F → Mem F
  | .ok m => m
  | .panic m => m

/-- Whether the run returned normally. -/
def Outcome.isOk : Outcome F → Bool
  | .ok _ => true
  | .panic _ => false

/-- Sequencing: a panic stops the run. -/
def Outcome.andThen (o : Outcome F) (k : Mem F → Outcome F) : Outcome F :=
  match o with
  | .ok m => k m
  | .panic m => .panic m

/-- Capacity of a slice, `cap(s)`. -/
def Mem.cap (st : Mem F) (s : Slice) : Nat := (st.heap s.arr).length

/-- The elements of a slice, `s[0], …, s[len(s)-1]`. -/
def Mem.view (st : Mem F) (s : Slice) : List F := (st.heap s.arr).take s.len

/-- Read `s[i]`; `none` is the index-out-of-range panic. -/
def Mem.index (st : Mem F) (s : Slice) (i : Nat) : Option F :=
  if i < s.len then (st.heap s.arr)[i]? else none

/-- Replace the contents of the backing array `a`. -/
def Mem.setArr (st : Mem F) (a : Nat) (l : List F) : Mem F :=
  { st with heap := Function.update st.heap a l }

/-- Allocate a fresh backing array with contents `l`; its identifier is the
old value of `next`. -/
def Mem.alloc (st : Mem F) (l : List F) : Mem F :=
  { st with heap := Function.update st.heap st.next l, next := st.next + 1 }

/-- Write `s[i] = v` into the backing array of `s`. -/
def Mem.assign (st : Mem F) (s : Slice) (i : Nat) (v : F) : Mem F :=
  st.setArr s.arr ((st.heap s.arr).set i v)

/-- Assignment of a slice header to a variable, `*p = s`. -/
def Mem.setVar (st : Mem F) (p : Nat) (s : Slice) : Mem F :=
  { st with vars := Function.update st.vars p s }

/-- Replace the first `vals.length` cells of the backing array of `s`. -/
def Mem.overwrite (st : Mem F) (s : Slice) (vals : List F) : Mem F :=
  st.setArr s.arr (vals ++ (st.heap s.arr).drop vals.length)

/-- Allocation `make(Polynomial, n, c)`: a fresh zeroed array of capacity `c`
and a header of length `n` on it. -/
def Mem.make [Zero F] (st : Mem F) (n c : Nat) : Slice × Mem F :=
  (⟨st.next, n⟩, st.alloc (List.replicate c 0))

/-- The builtin `copy(dst, src)`: copies `min(len(dst), len(src))` elements. -/
def Mem.copy (st : Mem F) (dst src : Slice) : Mem F :=
  st.overwrite dst ((st.view src).take dst.len)

/-- The statement `(*p)[i] = v` where `v` is the result of reading operands:
the index of the receiver and the operand reads are bounds-checked, and the
write happens only if none of them panics. -/
def store (p : Nat) (i : Nat) (v : Option F) (st : Mem F) : Outcome F :=
  match st.index (st.vars p) i, v with
  | some _, some x => .ok (st.assign (st.vars p) i x)
  | _, _ => .panic st

/-- The loop `for ; i < hi; i++ { body }`, entered with counter `i` and
`cnt = hi - i` iterations left. -/
def forRange (body : Nat → Mem F → Outcome F) : Nat → Nat → Mem F → Outcome F
  | _, 0, st => .ok st
  | i, cnt + 1, st => (body i st).andThen (forRange body (i + 1) cnt)

/-- A read-only loop of `cnt` iterations threading an accumulator; iteration
number `j` (counted from `i`) may panic. -/
def foldRange {α : Type} (body : Nat → α → Option α) : Nat → Nat → α → Option α
  | _, 0, a => some a
  | i, cnt + 1, a => (body i a).bind (foldRange body (i + 1) cnt)

/-- Modelled from the spec: `ecc.NextPowerOfTwo` is not among the sources; the
spec calls its result "the smallest power of two ≥ s".  This is the search
for the exponent: the least `k`, counted up from the given one, such that
`n ≤ 2 ^ k`. -/
def NextPowerOfTwo.exp (n : Nat) : Nat → Nat → Nat
  | 0, k => k
  | fuel + 1, k => if n ≤ 2 ^ k then k else NextPowerOfTwo.exp n fuel (k + 1)

/-- Modelled from the spec: smallest power of two that is at least `n`. -/
def NextPowerOfTwo (n : Nat) : Nat := 2 ^ NextPowerOfTwo.exp n n 0

/-- `NewPolynomial(size)`: length `size`, capacity the next power of two. -/
def NewPolynomial [Zero F] (size : Nat) (st : Mem F) : Slice × Mem F :=
  let s := NextPowerOfTwo size
  st.make size s

section Ops
variable [CommRing F] [DecidableEq F]

/-- `Eval`: Horner's rule, starting at `_p[len(_p)-1]`; the loop counter runs
from `len(_p)-2` down to `0`. -/
def Eval (st : Mem F) (p : Slice) (v : F) : Option F :=
  match p.len with
  | 0 => none
  | n + 1 =>
    (st.index p n).bind fun c =>
      foldRange (fun j res => (st.index p (n - 1 - j)).map fun c => res * v + c) 0 n c

/-- `Copy`: a fresh array of `len(*p)` cells holding a copy of `*p`. -/
def Copy (st : Mem F) (p : Slice) : Slice × Mem F :=
  let r := st.make p.len p.len
  (r.1, r.2.copy r.1 p)

/-- `sort` returns the two headers with the longer one first. -/
def sort (p1 p2 : Slice) : Slice × Slice :=
  let s1 := p1.len
  let s2 := p2.len
  if s2 > s1 then (p2, p1) else (p1, p2)

/-- `pad` appends `i` zeros to `*p`: `make(Polynomial, i)` panics for a
negative `i`; `append` writes in place when the capacity suffices and
otherwise moves the slice to a fresh array (whose capacity is taken to be
exactly the new length). -/
def pad (p : Nat) (i : Int) (st : Mem F) : Outcome F :=
  if i < 0 then .panic st
  else
    let k := i.toNat
    let s := st.vars p
    if s.len + k ≤ st.cap s then
      .ok ((st.setArr s.arr ((st.heap s.arr).take s.len ++ List.replicate k 0
              ++ (st.heap s.arr).drop (s.len + k))).setVar p ⟨s.arr, s.len + k⟩)
    else
      .ok ((st.alloc (st.view s ++ List.replicate k 0)).setVar p ⟨st.next, s.len + k⟩)

/-- `resize` adapts the size of `p` to `max(len(p1), len(p2), len(p))`. -/
def resize (p : Nat) (p1 p2 : Slice) (st : Mem F) : Outcome F :=
  if (st.vars p).len > p1.len ∧ (st.vars p).len > p2.len then .ok st
  else pad p (((sort p1 p2).1.len : Int) - ((st.vars p).len : Int)) st

/-- Loop of `Degree`, with `cnt = i + 1` for the counter `i`: returns at the
first non-zero coefficient, else decrements `res`. -/
def Degree.loop (st : Mem F) (p : Slice) : Nat → Int → Option Int
  | 0, res => some res
  | i + 1, res =>
    match st.index p i with
    | none => none
    | some c => if c ≠ 0 then some res else Degree.loop st p i (res - 1)

/-- `Degree`: the `int` counter `res` is converted to `uint64` on return. -/
def Degree (st : Mem F) (p : Slice) : Option Nat :=
  (Degree.loop st p p.len ((p.len : Int) - 1)).map fun res => (res % 2 ^ 64).toNat

/-- `Equal`: `res = res && e` does not evaluate `e` once `res` is false. -/
def Equal (st : Mem F) (p p1 : Slice) : Option Bool :=
  let q := sort p p1
  let s1 := q.1.len
  let s2 := q.2.len
  let d := s1 - s2
  (foldRange (fun i res =>
      if res then (st.index q.1 (s1 - 1 - i)).map fun c => decide (c = 0) else some false)
    0 d true).bind fun res =>
  foldRange (fun i res =>
      if res then
        (st.index q.1 (s2 - 1 - i)).bind fun a =>
          (st.index q.2 (s2 - 1 - i)).map fun b => decide (a = b)
      else some false)
    0 s2 res

/-- `addSorted`: three loops sharing the counter `i`. -/
def addSorted (p : Nat) (p1 p2 : Slice) (st : Mem F) : Outcome F :=
  let body := fun i (st : Mem F) =>
    store p i ((st.index p1 i).bind fun a => (st.index p2 i).map fun b => a + b) st
  (forRange body 0 p2.len st).andThen fun st =>
  (forRange body p2.len (p1.len - p2.len) st).andThen fun st =>
  forRange (fun i st => store p i (some 0) st)
    (max p2.len p1.len) ((st.vars p).len - max p2.len p1.len) st

/-- `subSorted`: three loops sharing the counter `i`. -/
def subSorted (p : Nat) (p1 p2 : Slice) (st : Mem F) : Outcome F :=
  let body := fun i (st : Mem F) =>
    store p i ((st.index p1 i).bind fun a => (st.index p2 i).map fun b => a - b) st
  (forRange body 0 p2.len st).andThen fun st =>
  (forRange body p2.len (p1.len - p2.len) st).andThen fun st =>
  forRange (fun i st => store p i (some 0) st)
    (max p2.len p1.len) ((st.vars p).len - max p2.len p1.len) st

/-- `Add`: the headers `_p1, _p2` are taken before the receiver is resized. -/
def Add (p p1 p2 : Nat) (st : Mem F) : Outcome F :=
  let q := sort (st.vars p1) (st.vars p2)
  (resize p (st.vars p1) (st.vars p2) st).andThen (addSorted p q.1 q.2)

/-- `Sub`: the headers `_p1, _p2` are taken before the receiver is resized. -/
def Sub (p p1 p2 : Nat) (st : Mem F) : Outcome F :=
  let q := sort (st.vars p1) (st.vars p2)
  (resize p (st.vars p1) (st.vars p2) st).andThen (subSorted p q.1 q.2)

/-- `Neg`: after the resize, `*p = *p1` copies the header of `p1`. -/
def Neg (p p1 : Nat) (st : Mem F) : Outcome F :=
  (resize p (st.vars p1) (st.vars p) st).andThen fun st =>
  let st := st.setVar p (st.vars p1)
  forRange (fun i st => store p i ((st.index (st.vars p) i).map fun a => -a) st)
    0 (st.vars p).len st

/-- `SetZero` zeroes every coefficient of `*p`. -/
def SetZero (p : Nat) (st : Mem F) : Outcome F :=
  forRange (fun i st => store p i (some 0) st) 0 (st.vars p).len st

end Ops

section FFT
variable [CommRing F] [Inv F]

/-- Constants of the scalar field used by the `fft` package, which is not
among the sources: a root of unity of order `2 ^ maxOrderRoot`, where
`maxOrderRoot` is the 2-adicity of the field. -/
structure FFTParams (F : Type) where
  rootOfUnity : F
  maxOrderRoot : Nat

/-- Modelled from the spec: the `fft.Domain`, "parameterized by a
power-of-two size m", which "holds the precomputed primitive m-th root of
unity" and "the multiplicative inverse of m". -/
structure Domain (F : Type) where
  Cardinality : Nat
  CardinalityInv : F
  Generator : F
  GeneratorInv : F

/-- Modelled from the spec: `fft.NewDomain(m, 0, false)` is not among the
sources.  The size is rounded up to a power of two `2 ^ logx`; construction
"fails with a configuration error when the requested transform size exceeds
the field's maximum supported power-of-two size"; the generator is the
root of unity of that order. -/
def NewDomain (cfg : FFTParams F) (m : Nat) : Option (Domain F) :=
  let logx := NextPowerOfTwo.exp m m 0
  if logx > cfg.maxOrderRoot then none
  else
    let g := cfg.rootOfUnity ^ 2 ^ (cfg.maxOrderRoot - logx)
    some ⟨2 ^ logx, ((2 ^ logx : Nat) : F)⁻¹, g, g⁻¹⟩

/-- Value at `x` of the polynomial with coefficient list `a`. -/
def evalAt (a : List F) (x : F) : F :=
  ((List.range a.length).map fun j => a.getD j 0 * x ^ j).sum

/-- Modelled from the spec: `Domain.FFT(a, DIF, 0)` is not among the sources;
the forward transform "transforms a length-m coefficient vector into its
evaluations at the m-th roots of unity". -/
def FFT (d : Domain F) (a : List F) : List F :=
  (List.range a.length).map fun i => evalAt a (d.Generator ^ i)

/-- Modelled from the spec: `Domain.FFTInverse(a, DIT, 0)` is not among the
sources; the inverse transform uses "the conjugate roots, followed by scaling
every entry by the multiplicative inverse of m". -/
def FFTInverse (d : Domain F) (a : List F) : List F :=
  (List.range a.length).map fun k => d.CardinalityInv * evalAt a (d.GeneratorInv ^ k)

variable [DecidableEq F]

/-- `mul` sets `p1 = p2 * p3`; the transforms work in place on the slices
they are given. -/
def mul (cfg : FFTParams F) (p1 : Nat) (p2 p3 : Slice) (st : Mem F) : Outcome F :=
  (SetZero p1 st).andThen fun st =>
  match NewDomain cfg ((st.vars p1).len % 2 ^ 64) with
  | none => .panic st
  | some d =>
    let st := st.overwrite p2 (FFT d (st.view p2))
    let st := st.overwrite p3 (FFT d (st.view p3))
    (forRange (fun i (st : Mem F) =>
        store p1 i ((st.index p2 i).bind fun a => (st.index p3 i).map fun b => a * b) st)
      0 (st.vars p1).len st).andThen fun st =>
    .ok (st.overwrite (st.vars p1) (FFTInverse d (st.view (st.vars p1))))

/-- The body shared by the two branches of `Mul`: padded copies of size `m`
of the operands, resize of the receiver, `mul`. -/
def Mul.withSize (cfg : FFTParams F) (p : Nat) (q1 q2 : Slice) (m : Nat) (st : Mem F) :
    Outcome F :=
  let r1 := st.make m m
  let r2 := r1.2.make m m
  let st := (r2.2.copy r1.1 q1).copy r2.1 q2
  (resize p r1.1 r2.1 st).andThen (mul cfg p r1.1 r2.1)

/-- `Mul` sets `p` to `p1 * p2`; `d1 + d2` and `2 * n` are `uint64`
operations. -/
def Mul (cfg : FFTParams F) (p p1 p2 : Nat) (st : Mem F) : Outcome F :=
  let q := sort (st.vars p1) (st.vars p2)
  let s := q.1.len
  let n := NextPowerOfTwo (s % 2 ^ 64)
  match Degree st q.1, Degree st q.2 with
  | some d1, some d2 =>
    if (d1 + d2) % 2 ^ 64 < n then Mul.withSize cfg p q.1 q.2 n st
    else Mul.withSize cfg p q.1 q.2 (2 * n % 2 ^ 64) st
  | _, _ => .panic st

/-- The transform size that `Mul` chooses: `n` when `d1 + d2 < n` and `2 * n`
otherwise (`none` if `Degree` panics). -/
def Mul.size (st : Mem F) (p1 p2 : Nat) : Option Nat :=
  let q := sort (st.vars p1) (st.vars p2)
  let s := q.1.len
  let n := NextPowerOfTwo (s % 2 ^ 64)
  match Degree st q.1, Degree st q.2 with
  | some d1, some d2 => some (if (d1 + d2) % 2 ^ 64 < n then n else 2 * n % 2 ^ 64)
  | _, _ => none

end FFT

/-- Memory in which variable `i` holds the polynomial `ls[i]`, each in a
backing array of its own whose capacity equals the length. -/
def Mem.ofLists (ls : List (List F)) : Mem F :=
  { vars := fun i => ⟨i, (ls.getD i []).length⟩, heap := fun i => ls.getD i [], next := ls.length }

/-- The statement `c := x.Copy()`: the slice that `Copy` returns for the
polynomial of variable `x` becomes the value of the variable `c` (the
pointer that `Copy` returns is the name `c`). -/
def CopyTo [CommRing F] (c x : Nat) (st : Mem F) : Mem F :=
  (Copy st (st.vars x)).2.setVar c (Copy st (st.vars x)).1

/-- Invariant of a Go slice header: `len(s) ≤ cap(s)`, and the capacity fits
in an `int`. -/
def Mem.Valid (st : Mem F) (s : Slice) : Prop :=
  s.len ≤ (st.heap s.arr).length ∧ (st.heap s.arr).length < 2 ^ 63

instance (st : Mem F) (s : Slice) : Decidable (st.Valid s) := by
  unfold Mem.Valid; infer_instance

/-- Coefficient of `x ^ i` in the polynomial held by `s`: `s[i]` inside the
slice and zero beyond its length. -/
def Mem.coeff [Zero F] (st : Mem F) (s : Slice) (i : Nat) : F := (st.index s i).getD 0

/-- `Frame p st0 st`: compared with `st0`, the memory `st` may differ only in
the header of the variable `p`, in the backing array that `p` had in `st0`
and in arrays allocated since; the slice of `p` lives in one of those. -/
def Frame (p : Nat) (st0 st : Mem F) : Prop :=
  st0.next ≤ st.next ∧ (∀ q, q ≠ p → st.vars q = st0.vars q) ∧
  (∀ a, a < st0.next → a ≠ (st0.vars p).arr → st.heap a = st0.heap a) ∧
  ((st.vars p).arr = (st0.vars p).arr ∨ st0.next ≤ (st.vars p).arr)

/-! ## Concrete inputs -/

/-- The scalar field of BLS12-377, as residues modulo its order. -/
abbrev Fr : Type :=
  ZMod 8444461749428370424248824938781546531375899335154063827935233455917409239041

/-- The constants of `fr/fft` for BLS12-377: a root of unity of order `2 ^ 47`. -/
def frParams : FFTParams Fr :=
  ⟨8065159656716812877374967518403273466521432693661810619979959746626482506078, 47⟩

/-- Three variables: `a = [1,1,1,1]` (variable 0), `b` = eight ones
(variable 1) and an empty `c` (variable 2, `var c Polynomial`). -/
def memAB : Mem Fr := Mem.ofLists [[1, 1, 1, 1], [1, 1, 1, 1, 1, 1, 1, 1], []]

/-- The memory `memAB` after `c := NewPolynomial(size)` for variable 2. -/
def memABC (size : Nat) : Mem Fr :=
  (NewPolynomial size memAB).2.setVar 2 (NewPolynomial size memAB).1

/-- Variable 0 holds `[3, 0, 5, 0]`, variable 1 holds the same coefficients
padded with zeros to length 16, variable 2 holds `[0, 0, 7, 0, 0]`. -/
def memPadded : Mem Fr :=
  Mem.ofLists [[3, 0, 5, 0], [3, 0, 5, 0, 0, 0, 0, 0, 0, 0, 0, 0, 0, 0, 0, 0], [0, 0, 7, 0, 0]]

instance fact_prime_17 : Fact (Nat.Prime 17) := ⟨by norm_num⟩

/-- The all-ones polynomial of length 20 over the prime field with 17
elements (variable 0). -/
def memOnes : Mem (ZMod 17) := Mem.ofLists [List.replicate 20 1]

/-- Variable 0 holds the zero polynomial of length 4, variable 1 an empty
polynomial, variable 2 holds `[0, 0, 0]` in an array of its own. -/
def memZero : Mem Fr := Mem.ofLists [[0, 0, 0, 0], [], [0, 0, 0]]

/-- Variables 0 and 1 hold `[1, 2, 3, 4]` and `[5, 6, 7, 8]`; variable 2
holds the longer `[9, 9, 9, 9, 9, 9]`. -/
def memEqual : Mem Fr := Mem.ofLists [[1, 2, 3, 4], [5, 6, 7, 8], [9, 9, 9, 9, 9, 9]]

/-- The constants of a small transform-friendly field: `3` is a root of unity
of order `2 ^ 4` in the field with 17 elements. -/
def params17 : FFTParams (ZMod 17) := ⟨3, 4⟩

/-- Over the field with 17 elements: variable 0 holds `[1, 2]`, variable 1
holds `[3, 4]`, variable 2 is empty. -/
def mem17 : Mem (ZMod 17) := Mem.ofLists [[1, 2], [3, 4], []]

/-! ## Reading a slice -/

section Read

theorem index_eq_some_coeff [Zero F] (st : Mem F) (s : Slice) (hv : st.Valid s) (i : Nat)
    (hi : i < s.len) : st.index s i = some (st.coeff s i) := by
  have hlt : i < (st.heap s.arr).length := lt_of_lt_of_le hi hv.1
  simp [Mem.coeff, Mem.index, hi, List.getElem?_eq_getElem hlt]

theorem index_eq_none (st : Mem F) (s : Slice) (i : Nat) (hi : s.len ≤ i) :
    st.index s i = none := by
  simp [Mem.index, Nat.not_lt.mpr hi]

theorem coeff_eq_zero [Zero F] (st : Mem F) (s : Slice) (i : Nat) (hi : s.len ≤ i) :
    st.coeff s i = 0 := by
  simp [Mem.coeff, index_eq_none st s i hi]

theorem index_eq_view (st : Mem F) (s : Slice) (i : Nat) :
    st.index s i = (st.view s)[i]? := by
  unfold Mem.index Mem.view
  by_cases hi : i < s.len
  · simp [hi, List.getElem?_take_of_lt]
  · simp [hi, List.getElem?_take_eq_none (Nat.not_lt.mp hi)]

theorem view_length (st : Mem F) (s : Slice) (hv : st.Valid s) :
    (st.view s).length = s.len := by
  simp [Mem.view, hv.1]

end Read

/-! ## Eval -/

section EvalProofs
variable [CommRing F]

theorem foldRange_horner (c : Nat → F) (v : F) (n : Nat) (f : Nat → Option F)
    (hf : ∀ i, i < n → f i = some (c i)) :
    ∀ (cnt j : Nat) (acc : F), j + cnt = n →
      foldRange (fun j res => (f (n - 1 - j)).map fun c => res * v + c) j cnt acc
        = some (acc * v ^ cnt + ∑ i in Finset.range cnt, c i * v ^ i) := by
  intro cnt
  induction cnt with
  | zero => intro j acc _; simp [foldRange]
  | succ cnt ih =>
    intro j acc hj
    have hidx : n - 1 - j = cnt := by omega
    have hlt : cnt < n := by omega
    rw [foldRange, hidx, hf cnt hlt]
    simp only [Option.map_some', Option.some_bind]
    rw [ih (j + 1) (acc * v + c cnt) (by omega), Finset.sum_range_succ]
    congr 1
    ring

/-- `Eval` on a slice of length at least 1 within its capacity returns the
sum of the monomials. -/
theorem Eval_eq_sum_of_cap (st : Mem F) (p : Slice) (v : F)
    (hcap : p.len ≤ (st.heap p.arr).length) (hn : 1 ≤ p.len) :
    Eval st p v = some (∑ i in Finset.range p.len, st.coeff p i * v ^ i) := by
  obtain ⟨n, hlen⟩ : ∃ n, p.len = n + 1 := ⟨p.len - 1, by omega⟩
  have hidx : ∀ i, i < p.len → st.index p i = some (st.coeff p i) := fun i hi => by
    have hlt : i < (st.heap p.arr).length := lt_of_lt_of_le hi hcap
    simp [Mem.coeff, Mem.index, hi, List.getElem?_eq_getElem hlt]
  unfold Eval
  rw [hlen]
  simp only [hidx n (by omega), Option.some_bind]
  rw [foldRange_horner (st.coeff p) v n (st.index p) (fun i hi => hidx i (by omega)) n 0
    (st.coeff p n) (by omega), Finset.sum_range_succ]
  congr 1
  ring

theorem Eval_eq_sum (st : Mem F) (p : Slice) (v : F) (hv : st.Valid p) (hn : 1 ≤ p.len) :
    Eval st p v = some (∑ i in Finset.range p.len, st.coeff p i * v ^ i) := by
  obtain ⟨n, hlen⟩ : ∃ n, p.len = n + 1 := ⟨p.len - 1, by omega⟩
  have hf : ∀ i, i < n → st.index p i = some (st.coeff p i) := fun i hi =>
    index_eq_some_coeff st p hv i (by omega)
  have htop := index_eq_some_coeff st p hv n (by omega)
  unfold Eval
  rw [hlen]
  simp only [htop, Option.some_bind]
  rw [foldRange_horner (st.coeff p) v n (st.index p) hf n 0 (st.coeff p n) (by omega),
    Finset.sum_range_succ]
  congr 1
  ring

end EvalProofs

/-! ## Degree -/

section DegreeProofs
variable [CommRing F] [DecidableEq F]

theorem Degree_loop_nonzero (st : Mem F) (p : Slice) (hv : st.Valid p) :
    ∀ cnt : Nat, cnt ≤ p.len → (∃ i, i < cnt ∧ st.coeff p i ≠ 0) →
      ∃ d, d < cnt ∧ Degree.loop st p cnt ((cnt : Int) - 1) = some (d : Int) ∧
        st.coeff p d ≠ 0 ∧ ∀ j, d < j → j < cnt → st.coeff p j = 0 := by
  intro cnt
  induction cnt with
  | zero => rintro _ ⟨i, hi, _⟩; omega
  | succ cnt ih =>
    rintro hle ⟨i, hi, hne⟩
    have hidx := index_eq_some_coeff st p hv cnt (by omega)
    by_cases hc : st.coeff p cnt = 0
    · have hi2 : i < cnt := by
        rcases Nat.lt_succ_iff_lt_or_eq.mp hi with h | h
        · exact h
        · subst h; exact absurd hc hne
      obtain ⟨d, hd, hloop, hdne, hab⟩ := ih (by omega) ⟨i, hi2, hne⟩
      refine ⟨d, by omega, ?_, hdne, ?_⟩
      · rw [Degree.loop, hidx]
        simp only [hc, ne_eq, not_true_eq_false, if_false]
        have hcast : ((cnt + 1 : Nat) : Int) - 1 - 1 = (cnt : Int) - 1 := by push_cast; ring
        rw [hcast]
        exact hloop
      · intro j hdj hj
        rcases Nat.lt_succ_iff_lt_or_eq.mp hj with h | h
        · exact hab j hdj h
        · subst h; exact hc
    · refine ⟨cnt, by omega, ?_, hc, ?_⟩
      · rw [Degree.loop, hidx]
        simp only [ne_eq, hc, not_false_eq_true, if_true]
        congr 1
        push_cast; ring
      · intro j hcj hj
        omega

theorem Degree_loop_zero (st : Mem F) (p : Slice) (hv : st.Valid p) :
    ∀ cnt : Nat, cnt ≤ p.len → (∀ i, i < cnt → st.coeff p i = 0) →
      Degree.loop st p cnt ((cnt : Int) - 1) = some (-1) := by
  intro cnt
  induction cnt with
  | zero => intro _ _; simp [Degree.loop]
  | succ cnt ih =>
    intro hle hz
    have hidx := index_eq_some_coeff st p hv cnt (by omega)
    rw [Degree.loop, hidx]
    simp only [hz cnt (by omega), ne_eq, not_true_eq_false, if_false]
    have hcast : ((cnt + 1 : Nat) : Int) - 1 - 1 = (cnt : Int) - 1 := by push_cast; ring
    rw [hcast]
    exact ih (by omega) (fun i hi => hz i (by omega))

theorem Degree_nonzero (st : Mem F) (p : Slice) (hv : st.Valid p)
    (hnz : ∃ i, st.coeff p i ≠ 0) :
    ∃ d, Degree st p = some d ∧ d < p.len ∧ st.coeff p d ≠ 0 ∧
      ∀ j, d < j → st.coeff p j = 0 := by
  obtain ⟨i, hne⟩ := hnz
  have hi : i < p.len := by
    by_contra h
    exact hne (coeff_eq_zero st p i (Nat.not_lt.mp h))
  obtain ⟨d, hd, hloop, hdne, hab⟩ := Degree_loop_nonzero st p hv p.len le_rfl ⟨i, hi, hne⟩
  refine ⟨d, ?_, hd, hdne, ?_⟩
  · unfold Degree
    rw [hloop]
    simp only [Option.map_some', Option.some.injEq]
    have h63 : p.len < 2 ^ 63 := lt_of_le_of_lt hv.1 hv.2
    have hlt : (d : Int) < 2 ^ 64 := by
      have : d < 2 ^ 64 := by omega
      exact_mod_cast this
    rw [Int.emod_eq_of_lt (Int.natCast_nonneg d) hlt]
    exact Int.toNat_natCast d
  · intro j hdj
    by_cases hj : j < p.len
    · exact hab j hdj hj
    · exact coeff_eq_zero st p j (Nat.not_lt.mp hj)

theorem Degree_zero (st : Mem F) (p : Slice) (hv : st.Valid p)
    (hz : ∀ i, st.coeff p i = 0) : Degree st p = some (2 ^ 64 - 1) := by
  unfold Degree
  rw [Degree_loop_zero st p hv p.len le_rfl (fun i _ => hz i)]
  rfl

/-- Under the slice invariant `Degree` always returns: either the slice has a
non-zero coefficient and the result is the greatest such index, or all
coefficients are zero and the result is `2 ^ 64 - 1`. -/
theorem Degree_cases (st : Mem F) (p : Slice) (hv : st.Valid p) :
    (∃ d, Degree st p = some d ∧ d < p.len ∧ st.coeff p d ≠ 0 ∧
        ∀ j, d < j → st.coeff p j = 0)
      ∨ (Degree st p = some (2 ^ 64 - 1) ∧ ∀ i, st.coeff p i = 0) := by
  by_cases h : ∃ i, st.coeff p i ≠ 0
  · exact Or.inl (Degree_nonzero st p hv h)
  · have hz : ∀ i, st.coeff p i = 0 := fun i => by
      by_contra hc
      exact h ⟨i, hc⟩
    exact Or.inr ⟨Degree_zero st p hv hz, hz⟩

end DegreeProofs

/-! ## Equal -/

section EqualProofs
variable [CommRing F] [DecidableEq F]

theorem foldRange_and (g : Nat → Option Bool) (chk : Nat → Bool) :
    ∀ (cnt i : Nat) (res : Bool), (∀ j, j < cnt → g (i + j) = some (chk (i + j))) →
      ∃ b, foldRange (fun i res => if res then g i else some false) i cnt res = some b ∧
        (b = true ↔ res = true ∧ ∀ j, j < cnt → chk (i + j) = true) := by
  intro cnt
  induction cnt with
  | zero => intro i res _; exact ⟨res, by simp [foldRange]⟩
  | succ cnt ih =>
    intro i res hg
    have hstep : ∀ j, j < cnt → g (i + 1 + j) = some (chk (i + 1 + j)) := fun j hj => by
      have := hg (j + 1) (by omega)
      rwa [show i + (j + 1) = i + 1 + j by omega] at this
    have h0 : g i = some (chk i) := by simpa using hg 0 (by omega)
    cases res with
    | false =>
      obtain ⟨b, hb, hiff⟩ := ih (i + 1) false hstep
      refine ⟨b, ?_, ?_⟩
      · rw [foldRange]; simpa using hb
      · simpa using hiff
    | true =>
      obtain ⟨b, hb, hiff⟩ := ih (i + 1) (chk i) hstep
      refine ⟨b, ?_, ?_⟩
      · rw [foldRange]; simpa [h0] using hb
      · rw [hiff]
        constructor
        · rintro ⟨hi, hrest⟩
          refine ⟨rfl, fun j hj => ?_⟩
          rcases Nat.eq_zero_or_pos j with h | h
          · subst h; simpa using hi
          · have := hrest (j - 1) (by omega)
            rwa [show i + 1 + (j - 1) = i + j by omega] at this
        · rintro ⟨_, hall⟩
          refine ⟨by simpa using hall 0 (by omega), fun j hj => ?_⟩
          have := hall (j + 1) (by omega)
          rwa [show i + (j + 1) = i + 1 + j by omega] at this

theorem Equal_sorted (st : Mem F) (q1 q2 : Slice) (hv1 : st.Valid q1) (hv2 : st.Valid q2)
    (hle : q2.len ≤ q1.len) :
    ∃ b,
      ((foldRange (fun i res =>
          if res then (st.index q1 (q1.len - 1 - i)).map fun c => decide (c = 0)
          else some false) 0 (q1.len - q2.len) true).bind fun res =>
        foldRange (fun i res =>
          if res then
            (st.index q1 (q2.len - 1 - i)).bind fun a =>
              (st.index q2 (q2.len - 1 - i)).map fun b => decide (a = b)
          else some false) 0 q2.len res) = some b ∧
      (b = true ↔ ∀ i, st.coeff q1 i = st.coeff q2 i) := by
  obtain ⟨b1, hb1, hiff1⟩ := foldRange_and
    (fun i => (st.index q1 (q1.len - 1 - i)).map fun c => decide (c = 0))
    (fun i => decide (st.coeff q1 (q1.len - 1 - i) = 0)) (q1.len - q2.len) 0 true
    (fun j hj => by
      simp only [Nat.zero_add]
      rw [index_eq_some_coeff st q1 hv1 _ (by omega)]
      rfl)
  obtain ⟨b2, hb2, hiff2⟩ := foldRange_and
    (fun i => (st.index q1 (q2.len - 1 - i)).bind fun a =>
      (st.index q2 (q2.len - 1 - i)).map fun b => decide (a = b))
    (fun i => decide (st.coeff q1 (q2.len - 1 - i) = st.coeff q2 (q2.len - 1 - i)))
    q2.len 0 b1
    (fun j hj => by
      simp only [Nat.zero_add]
      rw [index_eq_some_coeff st q1 hv1 _ (by omega),
        index_eq_some_coeff st q2 hv2 _ (by omega)]
      rfl)
  refine ⟨b2, ?_, ?_⟩
  · rw [hb1]; exact hb2
  · rw [hiff2, hiff1]
    simp only [true_and, Nat.zero_add, decide_eq_true_eq]
    constructor
    · rintro ⟨htail, hpre⟩ i
      by_cases h2 : i < q2.len
      · have := hpre (q2.len - 1 - i) (by omega)
        rwa [show q2.len - 1 - (q2.len - 1 - i) = i by omega] at this
      · rw [coeff_eq_zero st q2 i (Nat.not_lt.mp h2)]
        by_cases h1 : i < q1.len
        · have := htail (q1.len - 1 - i) (by omega)
          rwa [show q1.len - 1 - (q1.len - 1 - i) = i by omega] at this
        · exact coeff_eq_zero st q1 i (Nat.not_lt.mp h1)
    · intro hall
      refine ⟨fun j hj => ?_, fun j _ => hall _⟩
      rw [hall, coeff_eq_zero st q2 _ (by omega)]

theorem Equal_spec (st : Mem F) (p q : Slice) (hp : st.Valid p) (hq : st.Valid q) :
    ∃ b, Equal st p q = some b ∧ (b = true ↔ ∀ i, st.coeff p i = st.coeff q i) := by
  unfold Equal sort
  by_cases h : q.len > p.len
  · obtain ⟨b, hb, hiff⟩ := Equal_sorted st q p hq hp (by omega)
    refine ⟨b, by simpa [h] using hb, ?_⟩
    rw [hiff]
    exact ⟨fun hall i => (hall i).symm, fun hall i => (hall i).symm⟩
  · obtain ⟨b, hb, hiff⟩ := Equal_sorted st p q hp hq (by omega)
    exact ⟨b, by simpa [h] using hb, hiff⟩

end EqualProofs

/-! ## Frame: what a procedure with receiver `p` may change -/

section FrameProofs

theorem Frame.refl (p : Nat) (st : Mem F) : Frame p st st :=
  ⟨le_rfl, fun _ _ => rfl, fun _ _ _ => rfl, Or.inl rfl⟩

theorem Frame.setArr {p : Nat} {st0 st : Mem F} (h : Frame p st0 st) (a : Nat) (l : List F)
    (ha : a = (st0.vars p).arr ∨ st0.next ≤ a) : Frame p st0 (st.setArr a l) := by
  obtain ⟨h1, h2, h3, h4⟩ := h
  refine ⟨h1, h2, fun b hb hne => ?_, h4⟩
  have hba : b ≠ a := by
    rcases ha with ha | ha
    · rw [ha]; exact hne
    · omega
  simp [Mem.setArr, Function.update_noteq hba, h3 b hb hne]

theorem Frame.alloc {p : Nat} {st0 st : Mem F} (h : Frame p st0 st) (l : List F) :
    Frame p st0 (st.alloc l) := by
  obtain ⟨h1, h2, h3, h4⟩ := h
  refine ⟨Nat.le_succ_of_le h1, h2, fun b hb hne => ?_, h4⟩
  have hba : b ≠ st.next := by omega
  simp [Mem.alloc, Function.update_noteq hba, h3 b hb hne]

theorem Frame.setVar {p : Nat} {st0 st : Mem F} (h : Frame p st0 st) (s : Slice)
    (hs : s.arr = (st0.vars p).arr ∨ st0.next ≤ s.arr) : Frame p st0 (st.setVar p s) := by
  obtain ⟨h1, h2, h3, _⟩ := h
  refine ⟨h1, fun q hq => ?_, h3, ?_⟩
  · simp [Mem.setVar, Function.update_noteq hq, h2 q hq]
  · simpa [Mem.setVar] using hs

theorem Frame.overwrite {p : Nat} {st0 st : Mem F} (h : Frame p st0 st) (s : Slice)
    (l : List F) (hs : s.arr = (st0.vars p).arr ∨ st0.next ≤ s.arr) :
    Frame p st0 (st.overwrite s l) :=
  h.setArr _ _ hs

theorem Frame.store {p : Nat} {st0 st : Mem F} (h : Frame p st0 st) (i : Nat)
    (v : Option F) : Frame p st0 (store p i v st).mem := by
  unfold polynomial.store
  split
  · exact h.setArr _ _ h.2.2.2
  · exact h

theorem Frame.andThen {p : Nat} {st0 : Mem F} (o : Outcome F) (k : Mem F → Outcome F)
    (ho : Frame p st0 o.mem) (hk : ∀ st, Frame p st0 st → Frame p st0 (k st).mem) :
    Frame p st0 (o.andThen k).mem := by
  cases o with
  | ok m => exact hk m ho
  | panic m => exact ho

theorem Frame.forRange {p : Nat} {st0 : Mem F} (body : Nat → Mem F → Outcome F)
    (hbody : ∀ i st, Frame p st0 st → Frame p st0 (body i st).mem) :
    ∀ (cnt i : Nat) (st : Mem F), Frame p st0 st →
      Frame p st0 (polynomial.forRange body i cnt st).mem := by
  intro cnt
  induction cnt with
  | zero => intro i st h; exact h
  | succ cnt ih =>
    intro i st h
    rw [polynomial.forRange]
    exact Frame.andThen _ _ (hbody i st h) (fun st2 h2 => ih (i + 1) st2 h2)

variable [CommRing F]

theorem Frame.pad {p : Nat} {st0 st : Mem F} (h : Frame p st0 st) (i : Int) :
    Frame p st0 (pad p i st).mem := by
  unfold polynomial.pad
  split
  · exact h
  · simp only
    split
    · exact (h.setArr _ _ h.2.2.2).setVar _ h.2.2.2
    · exact (h.alloc _).setVar _ (Or.inr h.1)

theorem Frame.resize {p : Nat} {st0 st : Mem F} (h : Frame p st0 st) (p1 p2 : Slice) :
    Frame p st0 (resize p p1 p2 st).mem := by
  unfold polynomial.resize
  split
  · exact h
  · exact h.pad _

theorem Frame.addSorted {p : Nat} {st0 st : Mem F} (h : Frame p st0 st) (p1 p2 : Slice) :
    Frame p st0 (addSorted p p1 p2 st).mem := by
  unfold polynomial.addSorted
  refine Frame.andThen _ _ (Frame.forRange _ (fun i st h => h.store _ _) _ _ _ h) ?_
  intro st1 h1
  refine Frame.andThen _ _ (Frame.forRange _ (fun i st h => h.store _ _) _ _ _ h1) ?_
  intro st2 h2
  exact Frame.forRange _ (fun i st h => h.store _ _) _ _ _ h2

theorem Frame.subSorted {p : Nat} {st0 st : Mem F} (h : Frame p st0 st) (p1 p2 : Slice) :
    Frame p st0 (subSorted p p1 p2 st).mem := by
  unfold polynomial.subSorted
  refine Frame.andThen _ _ (Frame.forRange _ (fun i st h => h.store _ _) _ _ _ h) ?_
  intro st1 h1
  refine Frame.andThen _ _ (Frame.forRange _ (fun i st h => h.store _ _) _ _ _ h1) ?_
  intro st2 h2
  exact Frame.forRange _ (fun i st h => h.store _ _) _ _ _ h2

theorem Frame.Add (p p1 p2 : Nat) (st : Mem F) : Frame p st (Add p p1 p2 st).mem := by
  unfold polynomial.Add
  exact Frame.andThen _ _ ((Frame.refl p st).resize _ _) (fun st1 h1 => h1.addSorted _ _)

theorem Frame.Sub (p p1 p2 : Nat) (st : Mem F) : Frame p st (Sub p p1 p2 st).mem := by
  unfold polynomial.Sub
  exact Frame.andThen _ _ ((Frame.refl p st).resize _ _) (fun st1 h1 => h1.subSorted _ _)

theorem Frame.SetZero {p : Nat} {st0 st : Mem F} (h : Frame p st0 st) :
    Frame p st0 (SetZero p st).mem := by
  unfold polynomial.SetZero
  exact Frame.forRange _ (fun i st h => h.store _ _) _ _ _ h

variable [Inv F]

theorem Frame.mul {p : Nat} {st0 st : Mem F} (h : Frame p st0 st) (cfg : FFTParams F)
    (p2 p3 : Slice) (h2 : st0.next ≤ p2.arr) (h3 : st0.next ≤ p3.arr) :
    Frame p st0 (mul cfg p p2 p3 st).mem := by
  unfold polynomial.mul
  refine Frame.andThen _ _ h.SetZero ?_
  intro st1 h1
  split
  · exact h1
  · simp only
    refine Frame.andThen _ _ (Frame.forRange _ (fun i st h => h.store _ _) _ _ _ ?_) ?_
    · exact (h1.overwrite _ _ (Or.inr h2)).overwrite _ _ (Or.inr h3)
    · intro st2 hst2
      exact hst2.overwrite _ _ hst2.2.2.2

theorem Frame.Mul_withSize (cfg : FFTParams F) (p : Nat) (q1 q2 : Slice) (m : Nat)
    (st : Mem F) : Frame p st (Mul.withSize cfg p q1 q2 m st).mem := by
  unfold polynomial.Mul.withSize
  simp only
  refine Frame.andThen _ _ (Frame.resize ?_ _ _) ?_
  · unfold Mem.copy Mem.make
    refine Frame.overwrite (Frame.overwrite (((Frame.refl p st).alloc _).alloc _) _ _ ?_) _ _ ?_
    · exact Or.inr le_rfl
    · exact Or.inr (by simp [Mem.alloc])
  · intro st1 h1
    exact h1.mul cfg _ _ le_rfl (by simp [Mem.make, Mem.alloc])

theorem Frame.Mul [DecidableEq F] (cfg : FFTParams F) (p p1 p2 : Nat) (st : Mem F) :
    Frame p st (Mul cfg p p1 p2 st).mem := by
  unfold polynomial.Mul
  simp only
  split
  · split
    · exact Frame.Mul_withSize _ _ _ _ _ _
    · exact Frame.Mul_withSize _ _ _ _ _ _
  · exact Frame.refl p st

end FrameProofs

/-! ## Loops that write the receiver index by index -/

section StoreLoops

theorem assign_cell (st : Mem F) (s : Slice) (i : Nat) (x : F) (a j : Nat) :
    ((st.assign s i x).heap a)[j]?
      = if a = s.arr ∧ j = i ∧ i < (st.heap s.arr).length then some x else (st.heap a)[j]? := by
  unfold Mem.assign Mem.setArr
  by_cases ha : a = s.arr
  · subst ha
    simp only [Function.update_same, true_and]
    by_cases hj : j = i
    · subst hj
      by_cases hlt : j < (st.heap s.arr).length
      · simp [hlt, List.getElem?_set_self]
      · rw [if_neg (fun h => hlt h.2), List.getElem?_eq_none (by simpa using Nat.not_lt.mp hlt),
          List.getElem?_eq_none (Nat.not_lt.mp hlt)]
    · simp [hj, List.getElem?_set_ne (Ne.symm hj)]
  · simp [Function.update_noteq ha, ha]

theorem assign_length (st : Mem F) (s : Slice) (i : Nat) (x : F) (a : Nat) :
    ((st.assign s i x).heap a).length = (st.heap a).length := by
  unfold Mem.assign Mem.setArr
  by_cases ha : a = s.arr
  · subst ha; simp
  · simp [Function.update_noteq ha]

/-- A loop `for ; i < hi; i++ { (*p)[i] = g(i) }` whose right-hand side at
counter `i` depends on the headers and on the cells of index at least `i`
only: it returns, and writes `v i` at every index of its range. -/
theorem forRange_store (p : Nat) (g : Mem F → Nat → Option F)
    (hloc : ∀ (st st2 : Mem F) (i : Nat), st2.vars = st.vars →
      (∀ a j, i ≤ j → (st2.heap a)[j]? = (st.heap a)[j]?) → g st2 i = g st i) :
    ∀ (cnt lo : Nat) (st : Mem F) (v : Nat → F),
      (∀ i, lo ≤ i → i < lo + cnt → g st i = some (v i)) →
      lo + cnt ≤ (st.vars p).len → (st.vars p).len ≤ (st.heap (st.vars p).arr).length →
      ∃ st2, forRange (fun i st => store p i (g st i) st) lo cnt st = .ok st2 ∧
        st2.vars = st.vars ∧ st2.next = st.next ∧
        (∀ a, (st2.heap a).length = (st.heap a).length) ∧
        ∀ a j, (st2.heap a)[j]?
          = if a = (st.vars p).arr ∧ lo ≤ j ∧ j < lo + cnt then some (v j)
            else (st.heap a)[j]? := by
  intro cnt
  induction cnt with
  | zero =>
    intro lo st v _ _ _
    refine ⟨st, rfl, rfl, rfl, fun _ => rfl, fun a j => ?_⟩
    have : ¬(a = (st.vars p).arr ∧ lo ≤ j ∧ j < lo + 0) := by omega
    rw [if_neg this]
  | succ cnt ih =>
    intro lo st v hv hlen hcap
    have hlo : lo < (st.vars p).len := by omega
    have hlocap : lo < (st.heap (st.vars p).arr).length := by omega
    have hidx : st.index (st.vars p) lo = some ((st.heap (st.vars p).arr)[lo]) := by
      simp [Mem.index, hlo, List.getElem?_eq_getElem hlocap]
    have hstep : store p lo (g st lo) st = .ok (st.assign (st.vars p) lo (v lo)) := by
      unfold store
      rw [hidx, hv lo le_rfl (by omega)]
    have hcell := assign_cell st (st.vars p) lo (v lo)
    have hvars1 : (st.assign (st.vars p) lo (v lo)).vars = st.vars := rfl
    obtain ⟨st2, hrun, hvars, hnext, hlens, hcells⟩ :=
      ih (lo + 1) (st.assign (st.vars p) lo (v lo)) v
        (fun i hi1 hi2 => by
          rw [hloc st (st.assign (st.vars p) lo (v lo)) i rfl (fun a j hj => by
            rw [hcell a j]
            have : ¬(a = (st.vars p).arr ∧ j = lo ∧ lo < (st.heap (st.vars p).arr).length) := by
              omega
            simp [this])]
          exact hv i (by omega) (by omega))
        (by rw [hvars1]; omega)
        (by rw [hvars1, assign_length]; exact hcap)
    refine ⟨st2, ?_, hvars.trans hvars1, hnext, fun a => (hlens a).trans (assign_length _ _ _ _ a),
      fun a j => ?_⟩
    · rw [forRange, hstep]
      exact hrun
    · rw [hcells a j, hvars1, hcell a j]
      by_cases ha : a = (st.vars p).arr
      · by_cases hj : j = lo
        · subst hj
          have h1 : ¬(a = (st.vars p).arr ∧ j + 1 ≤ j ∧ j < j + 1 + cnt) := by omega
          have h2 : a = (st.vars p).arr ∧ j ≤ j ∧ j < j + (cnt + 1) := ⟨ha, le_rfl, by omega⟩
          simp [h1, h2, ha, hlocap]
        · by_cases hr : lo + 1 ≤ j ∧ j < lo + 1 + cnt
          · have h2 : a = (st.vars p).arr ∧ lo ≤ j ∧ j < lo + (cnt + 1) := ⟨ha, by omega, by omega⟩
            simp [ha, hr, h2]
          · have h1 : ¬(a = (st.vars p).arr ∧ lo + 1 ≤ j ∧ j < lo + 1 + cnt) := fun h => hr h.2
            have h2 : ¬(a = (st.vars p).arr ∧ lo ≤ j ∧ j < lo + (cnt + 1)) := by
              rintro ⟨_, h3, h4⟩
              exact hr ⟨by omega, by omega⟩
            simp [h1, h2, hj]
      · simp [ha]

theorem heap_eq_of_cells (st st2 : Mem F) (a : Nat)
    (h : ∀ j : Nat, (st2.heap a)[j]? = (st.heap a)[j]?) : st2.heap a = st.heap a :=
  List.ext_getElem? h

theorem index_congr (st st2 : Mem F) (s : Slice) (i : Nat)
    (h : ∀ a j, i ≤ j → (st2.heap a)[j]? = (st.heap a)[j]?) :
    st2.index s i = st.index s i := by
  unfold Mem.index
  rw [h s.arr i le_rfl]

theorem view_getElem? (st : Mem F) (s : Slice) (j : Nat) :
    (st.view s)[j]? = if j < s.len then (st.heap s.arr)[j]? else none := by
  rw [← index_eq_view]; rfl

/-- `SetZero` returns and zeroes the coefficients of the receiver; nothing
else changes. -/
theorem SetZero_spec [CommRing F] (p : Nat) (st : Mem F)
    (hcap : (st.vars p).len ≤ (st.heap (st.vars p).arr).length) :
    ∃ st2, SetZero p st = .ok st2 ∧ st2.vars = st.vars ∧ st2.next = st.next ∧
      (∀ a, (st2.heap a).length = (st.heap a).length) ∧
      (∀ a, a ≠ (st.vars p).arr → st2.heap a = st.heap a) ∧
      st2.view (st.vars p) = List.replicate (st.vars p).len 0 := by
  obtain ⟨st2, hrun, hvars, hnext, hlens, hcells⟩ :=
    forRange_store p (fun _ _ => some (0 : F)) (fun _ _ _ _ _ => rfl) (st.vars p).len 0 st
      (fun _ => 0) (fun _ _ _ => rfl) (by omega) hcap
  refine ⟨st2, hrun, hvars, hnext, hlens, fun a ha => ?_, ?_⟩
  · apply heap_eq_of_cells
    intro j
    rw [hcells a j]
    have : ¬(a = (st.vars p).arr ∧ 0 ≤ j ∧ j < 0 + (st.vars p).len) := fun h => ha h.1
    rw [if_neg this]
  · apply List.ext_getElem?
    intro j
    rw [view_getElem?, hcells, List.getElem?_replicate]
    by_cases hj : j < (st.vars p).len
    · have : (st.vars p).arr = (st.vars p).arr ∧ 0 ≤ j ∧ j < 0 + (st.vars p).len :=
        ⟨rfl, Nat.zero_le _, by omega⟩
      simp [hj]
    · simp [hj]

end StoreLoops

/-! ## The transform pair -/

section Transform

theorem list_sum_map_range {M : Type} [AddCommMonoid M] (f : Nat → M) (n : Nat) :
    ((List.range n).map f).sum = ∑ i in Finset.range n, f i := by
  induction n with
  | zero => simp
  | succ n ih => rw [List.range_succ, List.map_append, List.sum_append, ih,
      Finset.sum_range_succ]; simp

variable [Field F]

theorem evalAt_eq_sum (a : List F) (x : F) :
    evalAt a x = ∑ j in Finset.range a.length, a.getD j 0 * x ^ j := by
  unfold evalAt
  exact list_sum_map_range _ _

/-- Orthogonality of the powers of a primitive `m`-th root of unity. -/
theorem root_sum_orthogonal {ω : F} {m : Nat} (hω : IsPrimitiveRoot ω m) (j k : Nat)
    (hj : j < m) (hk : k < m) :
    ∑ i in Finset.range m, (ω ^ i) ^ j * ((ω⁻¹) ^ k) ^ i = if j = k then (m : F) else 0 := by
  have hm : 0 < m := by omega
  have hω0 : ω ≠ 0 := by
    intro h
    have h1 := hω.pow_eq_one
    rw [h, zero_pow (by omega)] at h1
    exact zero_ne_one h1
  have hterm : ∀ i, (ω ^ i) ^ j * ((ω⁻¹) ^ k) ^ i = (ω ^ j * (ω⁻¹) ^ k) ^ i := by
    intro i
    rw [mul_pow, ← pow_mul, ← pow_mul, ← pow_mul, mul_comm i j]
  simp only [hterm]
  by_cases hjk : j = k
  · subst hjk
    have h1 : ω ^ j * (ω⁻¹) ^ j = 1 := by
      rw [← mul_pow, mul_inv_cancel₀ hω0, one_pow]
    rw [if_pos rfl]
    simp only [h1, one_pow, Finset.sum_const, Finset.card_range, nsmul_eq_mul, mul_one]
  · have hne : ω ^ j * (ω⁻¹) ^ k ≠ 1 := by
      intro h
      apply hjk
      apply hω.pow_inj hj hk
      have hk0 : ω ^ k ≠ 0 := pow_ne_zero _ hω0
      rw [inv_pow] at h
      field_simp at h
      exact h
    have hpow : (ω ^ j * (ω⁻¹) ^ k) ^ m = 1 := by
      rw [mul_pow, ← pow_mul, ← pow_mul, mul_comm j m, mul_comm k m, pow_mul, pow_mul,
        inv_pow, hω.pow_eq_one]
      simp
    rw [geom_sum_eq hne, hpow, sub_self, zero_div, if_neg hjk]

/-- Interpolation undoes evaluation: for coefficients `c 0, …, c (m-1)`, the
scaled sum over the conjugate roots of the values at the roots gives back
`c k`. -/
theorem interpolate_evaluate {ω : F} {m : Nat} (hω : IsPrimitiveRoot ω m)
    (hm0 : (m : F) ≠ 0) (c : Nat → F) (k : Nat) (hk : k < m) :
    (m : F)⁻¹ * ∑ i in Finset.range m,
        (∑ j in Finset.range m, c j * (ω ^ i) ^ j) * ((ω⁻¹) ^ k) ^ i = c k := by
  have hswap : ∑ i in Finset.range m,
        (∑ j in Finset.range m, c j * (ω ^ i) ^ j) * ((ω⁻¹) ^ k) ^ i
      = ∑ j in Finset.range m, c j * (if j = k then (m : F) else 0) := by
    simp only [Finset.sum_mul]
    rw [Finset.sum_comm]
    apply Finset.sum_congr rfl
    intro j hj
    rw [← root_sum_orthogonal hω j k (Finset.mem_range.mp hj) hk, Finset.mul_sum]
    apply Finset.sum_congr rfl
    intro i _
    ring
  rw [hswap]
  simp only [mul_ite, mul_zero]
  rw [Finset.sum_ite_eq' (Finset.range m) k, if_pos (Finset.mem_range.mpr hk)]
  field_simp

theorem evalAt_eq_eval (a : List F) (x : F) :
    evalAt a x = (∑ j in Finset.range a.length,
      Polynomial.C (a.getD j 0) * Polynomial.X ^ j).eval x := by
  rw [evalAt_eq_sum, Polynomial.eval_finset_sum]
  simp

theorem coeff_of_list (a : List F) (k : Nat) :
    (∑ j in Finset.range a.length,
      Polynomial.C (a.getD j 0) * Polynomial.X ^ j).coeff k = a.getD k 0 := by
  rw [Polynomial.finset_sum_coeff]
  simp only [Polynomial.coeff_C_mul_X_pow]
  rw [Finset.sum_ite_eq (Finset.range a.length) k]
  by_cases hk : k < a.length
  · simp [hk]
  · simp [hk, List.getElem?_eq_none (Nat.not_lt.mp hk)]

/-- Forward transforms, pointwise product and inverse transform at size `m`
compute the coefficients of the product, provided no product of
coefficients lands at a degree `m` or higher. -/
theorem FFTInverse_zipWith_FFT (d : Domain F) (m : Nat) (A B : List F) (hA : A.length = m)
    (hB : B.length = m) (hg : IsPrimitiveRoot d.Generator m)
    (hginv : d.GeneratorInv = d.Generator⁻¹) (hcinv : d.CardinalityInv = (m : F)⁻¹)
    (hm0 : (m : F) ≠ 0)
    (hnowrap : ∀ i j, m ≤ i + j → A.getD i 0 * B.getD j 0 = 0) :
    FFTInverse d (List.zipWith (fun a b => a * b) (FFT d A) (FFT d B))
      = (List.range m).map fun k =>
          ∑ ij in Finset.antidiagonal k, A.getD ij.1 0 * B.getD ij.2 0 := by
  have hmpos : 0 < m := by
    rcases Nat.eq_zero_or_pos m with h | h
    · subst h; simp at hm0
    · exact h
  have hR : ∀ k, ((∑ j in Finset.range A.length,
        Polynomial.C (A.getD j 0) * Polynomial.X ^ j)
      * (∑ j in Finset.range B.length,
        Polynomial.C (B.getD j 0) * Polynomial.X ^ j)).coeff k
      = ∑ ij in Finset.antidiagonal k, A.getD ij.1 0 * B.getD ij.2 0 := by
    intro k
    rw [Polynomial.coeff_mul]
    apply Finset.sum_congr rfl
    intro ij _
    rw [coeff_of_list, coeff_of_list]
  have hdeg : ((∑ j in Finset.range A.length,
        Polynomial.C (A.getD j 0) * Polynomial.X ^ j)
      * (∑ j in Finset.range B.length,
        Polynomial.C (B.getD j 0) * Polynomial.X ^ j)).natDegree < m := by
    by_cases h0 : (∑ j in Finset.range A.length,
        Polynomial.C (A.getD j 0) * Polynomial.X ^ j)
      * (∑ j in Finset.range B.length,
        Polynomial.C (B.getD j 0) * Polynomial.X ^ j) = 0
    · rw [h0]; simpa using hmpos
    · rw [Polynomial.natDegree_lt_iff_degree_lt h0, Polynomial.degree_lt_iff_coeff_zero]
      intro k hk
      rw [hR k]
      apply Finset.sum_eq_zero
      intro ij hij
      have := Finset.mem_antidiagonal.mp hij
      exact hnowrap ij.1 ij.2 (by omega)
  have hFA : (FFT d A).length = m := by simp [FFT, hA]
  have hFB : (FFT d B).length = m := by simp [FFT, hB]
  have hZlen : (List.zipWith (fun a b => a * b) (FFT d A) (FFT d B)).length = m := by
    simp [hFA, hFB]
  have hZ : ∀ i, i < m →
      (List.zipWith (fun a b => a * b) (FFT d A) (FFT d B)).getD i 0
        = ∑ j in Finset.range m,
            (∑ ij in Finset.antidiagonal j, A.getD ij.1 0 * B.getD ij.2 0)
              * (d.Generator ^ i) ^ j := by
    intro i hi
    have h1 : (List.zipWith (fun a b => a * b) (FFT d A) (FFT d B)).getD i 0
        = evalAt A (d.Generator ^ i) * evalAt B (d.Generator ^ i) := by
      rw [List.getD_eq_getElem _ _ (by rw [hZlen]; exact hi)]
      simp [FFT]
    rw [h1, evalAt_eq_eval, evalAt_eq_eval, ← Polynomial.eval_mul,
      Polynomial.eval_eq_sum_range' hdeg]
    apply Finset.sum_congr rfl
    intro j _
    rw [hR j]
  unfold FFTInverse
  rw [hZlen]
  apply List.map_congr_left
  intro k hk
  have hk2 : k < m := List.mem_range.mp hk
  rw [evalAt_eq_sum, hZlen, hcinv, hginv]
  rw [← interpolate_evaluate hg hm0
    (fun j => ∑ ij in Finset.antidiagonal j, A.getD ij.1 0 * B.getD ij.2 0) k hk2]
  congr 1
  apply Finset.sum_congr rfl
  intro i hi
  rw [hZ i (Finset.mem_range.mp hi)]

end Transform

/-! ## pad and resize -/

section ResizeProofs
variable [CommRing F]

/-- `pad` with a count `k ≥ 0` returns; the receiver keeps its coefficients,
gains `k` zero coefficients, and sits in its old array or in a fresh one;
nothing else changes. -/
theorem pad_spec (p k : Nat) (st : Mem F) (hv : (st.vars p).len ≤ (st.heap (st.vars p).arr).length) :
    ∃ st2, pad p (k : Int) st = .ok st2 ∧
      (st2.vars p).len = (st.vars p).len + k ∧
      (st2.vars p).len ≤ (st2.heap (st2.vars p).arr).length ∧
      st2.view (st2.vars p) = st.view (st.vars p) ++ List.replicate k 0 ∧
      ((st2.vars p).arr = (st.vars p).arr ∧ st2.next = st.next ∧
          (st2.heap (st.vars p).arr).length = (st.heap (st.vars p).arr).length
        ∨ (st2.vars p).arr = st.next ∧ st2.next = st.next + 1) ∧
      (∀ q, q ≠ p → st2.vars q = st.vars q) ∧
      (∀ a, a ≠ (st2.vars p).arr → st2.heap a = st.heap a) := by
  unfold pad
  have hk : ¬((k : Int) < 0) := by omega
  simp only [hk, if_false, Int.toNat_natCast, Mem.cap]
  by_cases hcap : (st.vars p).len + k ≤ (st.heap (st.vars p).arr).length
  · simp only [hcap, if_true]
    refine ⟨_, rfl, ?_, ?_, ?_, ?_, ?_, ?_⟩
    · simp [Mem.setVar, Mem.setArr]
    · simp only [Mem.setVar, Mem.setArr, Function.update_same, List.length_append,
        List.length_take, List.length_replicate, List.length_drop]
      omega
    · simp only [Mem.view, Mem.setVar, Mem.setArr, Function.update_same]
      rw [List.take_append_of_le_length (by simp; omega)]
      rw [List.take_of_length_le (by simp)]
    · left
      refine ⟨by simp [Mem.setVar, Mem.setArr], rfl, ?_⟩
      simp only [Mem.setVar, Mem.setArr, Function.update_same, List.length_append,
        List.length_take, List.length_replicate, List.length_drop]
      omega
    · intro q hq
      simp [Mem.setVar, Mem.setArr, Function.update_noteq hq]
    · intro a ha
      simp only [Mem.setVar, Mem.setArr, Function.update_same] at ha ⊢
      rw [Function.update_noteq ha]
  · simp only [hcap, if_false]
    refine ⟨_, rfl, ?_, ?_, ?_, ?_, ?_, ?_⟩
    · simp [Mem.setVar, Mem.alloc]
    · simp only [Mem.setVar, Mem.alloc, Function.update_same, List.length_append,
        List.length_replicate, Mem.view, List.length_take]
      omega
    · simp only [Mem.view, Mem.setVar, Mem.alloc, Function.update_same]
      rw [List.take_of_length_le (by simp)]
    · right
      exact ⟨by simp [Mem.setVar, Mem.alloc], rfl⟩
    · intro q hq
      simp [Mem.setVar, Mem.alloc, Function.update_noteq hq]
    · intro a ha
      simp only [Mem.setVar, Mem.alloc, Function.update_same] at ha ⊢
      rw [Function.update_noteq ha]

/-- `resize` returns; the receiver keeps its coefficients and is extended
with zeros to the length `max(len(p), len(p1), len(p2))`; it sits in its old
array or in a fresh one, and nothing else changes. -/
theorem resize_spec (p : Nat) (s1 s2 : Slice) (st : Mem F)
    (hv : (st.vars p).len ≤ (st.heap (st.vars p).arr).length) :
    ∃ st2, resize p s1 s2 st = .ok st2 ∧
      (st2.vars p).len = max (st.vars p).len (max s1.len s2.len) ∧
      (st2.vars p).len ≤ (st2.heap (st2.vars p).arr).length ∧
      st2.view (st2.vars p) = st.view (st.vars p)
        ++ List.replicate (max (st.vars p).len (max s1.len s2.len) - (st.vars p).len) 0 ∧
      ((st2.vars p).arr = (st.vars p).arr ∧ st2.next = st.next ∧
          (st2.heap (st.vars p).arr).length = (st.heap (st.vars p).arr).length
        ∨ (st2.vars p).arr = st.next ∧ st2.next = st.next + 1) ∧
      (∀ q, q ≠ p → st2.vars q = st.vars q) ∧
      (∀ a, a ≠ (st2.vars p).arr → st2.heap a = st.heap a) := by
  unfold resize
  by_cases h : (st.vars p).len > s1.len ∧ (st.vars p).len > s2.len
  · rw [if_pos h]
    have hmax : max (st.vars p).len (max s1.len s2.len) = (st.vars p).len := by omega
    refine ⟨st, rfl, hmax.symm, hv, ?_, Or.inl ⟨rfl, rfl, rfl⟩, fun _ _ => rfl, fun _ _ => rfl⟩
    rw [hmax]; simp
  · rw [if_neg h]
    have hsort : (sort s1 s2).1.len = max s1.len s2.len := by
      unfold sort
      by_cases h2 : s2.len > s1.len
      · simp only [h2, if_true]; omega
      · simp only [h2, if_false]; omega
    have hle : (st.vars p).len ≤ max s1.len s2.len := by omega
    have hmax : max (st.vars p).len (max s1.len s2.len) = max s1.len s2.len := by omega
    obtain ⟨st2, hrun, hlen, hcap, hview, harr, hvars, hheap⟩ :=
      pad_spec p (max s1.len s2.len - (st.vars p).len) st hv
    refine ⟨st2, ?_, by rw [hlen, hmax]; omega, hcap, by rw [hmax]; exact hview, harr, hvars,
      hheap⟩
    rw [hsort, ← Nat.cast_sub hle]
    exact hrun

/-- The cells of an operand below its length survive `resize` of the
receiver, when the operand is the receiver itself or lives in another
array. -/
theorem resize_keeps_operand (p : Nat) (s1 s2 x : Slice) (st st2 : Mem F)
    (hv : (st.vars p).len ≤ (st.heap (st.vars p).arr).length) (hax : x.arr < st.next)
    (halias : x = st.vars p ∨ x.arr ≠ (st.vars p).arr)
    (hrun : resize p s1 s2 st = .ok st2) (i : Nat) (hi : i < x.len) :
    (st2.heap x.arr)[i]? = (st.heap x.arr)[i]? := by
  obtain ⟨st3, hrun3, hlen, _, hview, harr, _, hheap⟩ := resize_spec p s1 s2 st hv
  rw [hrun] at hrun3
  cases hrun3
  rcases harr with ⟨h, _, _⟩ | ⟨h, _⟩
  · rcases halias with hx | hx
    · subst hx
      have h1 := congrArg (fun l : List F => l[i]?) hview
      simp only [view_getElem?] at h1
      rw [hlen, if_pos (by omega), h,
        List.getElem?_append_left (by simp [Mem.view]; omega)] at h1
      rw [view_getElem?, if_pos hi] at h1
      exact h1
    · rw [hheap x.arr (by rw [h]; exact hx)]
  · rw [hheap x.arr (by rw [h]; omega)]

end ResizeProofs

/-! ## Add and Sub on operands of equal length -/

section AddSubProofs
variable [CommRing F]

/-- The three loops of `addSorted` / `subSorted` for operands of one length
`L` and a receiver at least that long: the call returns, index `i < L` of
the receiver gets `op p1[i] p2[i]`, the indices from `L` on get zero. -/
theorem sorted_loops_spec (op : F → F → F) (p : Nat) (q1 q2 : Slice) (st : Mem F) (L : Nat)
    (hq1 : q1.len = L) (hq2 : q2.len = L) (hN : L ≤ (st.vars p).len)
    (hcap : (st.vars p).len ≤ (st.heap (st.vars p).arr).length) (a b : Nat → F)
    (ha : ∀ i, i < L → st.index q1 i = some (a i))
    (hb : ∀ i, i < L → st.index q2 i = some (b i)) :
    ∃ st2,
      ((forRange (fun i (st : Mem F) =>
          store p i ((st.index q1 i).bind fun x => (st.index q2 i).map fun y => op x y) st)
          0 q2.len st).andThen fun st =>
        (forRange (fun i (st : Mem F) =>
          store p i ((st.index q1 i).bind fun x => (st.index q2 i).map fun y => op x y) st)
          q2.len (q1.len - q2.len) st).andThen fun st =>
        forRange (fun i st => store p i (some 0) st)
          (max q2.len q1.len) ((st.vars p).len - max q2.len q1.len) st) = .ok st2 ∧
      st2.vars = st.vars ∧ st2.next = st.next ∧
      (∀ c, c ≠ (st.vars p).arr → st2.heap c = st.heap c) ∧
      ∀ i, st2.coeff (st.vars p) i = if i < L then op (a i) (b i) else 0 := by
  obtain ⟨sta, hruna, hvarsa, hnexta, hlensa, hcellsa⟩ :=
    forRange_store p
      (fun (st : Mem F) i =>
        (st.index q1 i).bind fun x => (st.index q2 i).map fun y => op x y)
      (fun s1 s2 i _ h => by
        simp only [index_congr s1 s2 q1 i h, index_congr s1 s2 q2 i h])
      L 0 st (fun i => op (a i) (b i))
      (fun i _ hi => by
        beta_reduce
        rw [ha i (by omega), hb i (by omega)]
        rfl)
      (by omega) hcap
  obtain ⟨stb, hrunb, hvarsb, hnextb, hlensb, hcellsb⟩ :=
    forRange_store p (fun _ _ => some (0 : F)) (fun _ _ _ _ _ => rfl)
      ((st.vars p).len - L) L sta (fun _ => 0) (fun _ _ _ => rfl)
      (by rw [hvarsa]; omega) (by rw [hvarsa, hlensa]; exact hcap)
  refine ⟨stb, ?_, hvarsb.trans hvarsa, hnextb.trans hnexta, fun c hc => ?_, fun i => ?_⟩
  · rw [hq1, hq2, hruna]
    simp only [Outcome.andThen, Nat.sub_self, forRange, max_self, hvarsa]
    exact hrunb
  · apply heap_eq_of_cells
    intro j
    rw [hcellsb c j, hcellsa c j, hvarsa]
    have h1 : ¬(c = (st.vars p).arr ∧ L ≤ j ∧ j < L + ((st.vars p).len - L)) := fun h => hc h.1
    have h2 : ¬(c = (st.vars p).arr ∧ 0 ≤ j ∧ j < 0 + L) := fun h => hc h.1
    rw [if_neg h1, if_neg h2]
  · unfold Mem.coeff Mem.index
    rw [hcellsb, hcellsa, hvarsa]
    by_cases hi : i < L
    · have h1 : ¬((st.vars p).arr = (st.vars p).arr ∧ L ≤ i
          ∧ i < L + ((st.vars p).len - L)) := by omega
      have h2 : (st.vars p).arr = (st.vars p).arr ∧ 0 ≤ i ∧ i < 0 + L :=
        ⟨rfl, Nat.zero_le _, by omega⟩
      rw [if_pos (by omega), if_neg h1, if_pos h2, if_pos hi]
      rfl
    · rw [if_neg hi]
      by_cases hi2 : i < (st.vars p).len
      · have h1 : (st.vars p).arr = (st.vars p).arr ∧ L ≤ i
            ∧ i < L + ((st.vars p).len - L) := ⟨rfl, by omega, by omega⟩
        rw [if_pos hi2, if_pos h1]
        rfl
      · rw [if_neg hi2]
        rfl

/-- `Add` on operands of one length `L`, the receiver being an operand
itself or living in an array of its own: the call returns, the receiver has
length `max(len(p), L)`, and its coefficient at every index `i` is
`p1[i] + p2[i]` (zero from `L` on, stale coefficients included). -/
theorem Add_equal_len_spec (p p1 p2 : Nat) (st : Mem F) (hvp : st.Valid (st.vars p))
    (hv1 : st.Valid (st.vars p1)) (hv2 : st.Valid (st.vars p2))
    (ha1 : (st.vars p1).arr < st.next) (ha2 : (st.vars p2).arr < st.next)
    (hal1 : p1 = p ∨ (st.vars p1).arr ≠ (st.vars p).arr)
    (hal2 : p2 = p ∨ (st.vars p2).arr ≠ (st.vars p).arr)
    (hlen : (st.vars p1).len = (st.vars p2).len) :
    ∃ st2, Add p p1 p2 st = .ok st2 ∧
      (st2.vars p).len = max (st.vars p).len (st.vars p1).len ∧
      (∀ q, q ≠ p → st2.vars q = st.vars q) ∧
      ∀ i, st2.coeff (st2.vars p) i
        = st.coeff (st.vars p1) i + st.coeff (st.vars p2) i := by
  have hsort : sort (st.vars p1) (st.vars p2) = (st.vars p1, st.vars p2) := by
    unfold sort
    simp [hlen]
  obtain ⟨st1, hres, hlen1, hcap1, _, _, hvars1, _⟩ :=
    resize_spec p (st.vars p1) (st.vars p2) st hvp.1
  have hx1 : st.vars p1 = st.vars p ∨ (st.vars p1).arr ≠ (st.vars p).arr := by
    rcases hal1 with h | h
    · left; rw [h]
    · right; exact h
  have hx2 : st.vars p2 = st.vars p ∨ (st.vars p2).arr ≠ (st.vars p).arr := by
    rcases hal2 with h | h
    · left; rw [h]
    · right; exact h
  have hidx1 : ∀ i, i < (st.vars p1).len →
      st1.index (st.vars p1) i = some (st.coeff (st.vars p1) i) := by
    intro i hi
    rw [← index_eq_some_coeff st _ hv1 i hi]
    unfold Mem.index
    rw [resize_keeps_operand p _ _ (st.vars p1) st st1 hvp.1 ha1 hx1 hres i hi]
  have hidx2 : ∀ i, i < (st.vars p1).len →
      st1.index (st.vars p2) i = some (st.coeff (st.vars p2) i) := by
    intro i hi
    rw [← index_eq_some_coeff st _ hv2 i (by omega)]
    unfold Mem.index
    rw [resize_keeps_operand p _ _ (st.vars p2) st st1 hvp.1 ha2 hx2 hres i (by omega)]
  obtain ⟨st2, hrun, hvars2, _, _, hco⟩ :=
    sorted_loops_spec (fun x y => x + y) p (st.vars p1) (st.vars p2) st1 (st.vars p1).len rfl
      hlen.symm (by rw [hlen1]; omega) hcap1 _ _ hidx1 hidx2
  refine ⟨st2, ?_, ?_, ?_, fun i => ?_⟩
  · unfold Add
    rw [hsort, hres]
    simp only [Outcome.andThen]
    unfold addSorted
    exact hrun
  · rw [hvars2, hlen1, ← hlen, max_self]
  · intro q hq
    rw [hvars2]
    exact hvars1 q hq
  · rw [hvars2, hco i]
    by_cases hi : i < (st.vars p1).len
    · rw [if_pos hi]
    · rw [if_neg hi, coeff_eq_zero st _ i (by omega), coeff_eq_zero st _ i (by omega)]
      simp

/-- `Sub` on operands of one length `L`, the receiver being an operand
itself or living in an array of its own: the call returns, the receiver has
length `max(len(p), L)`, and its coefficient at every index `i` is
`p1[i] - p2[i]` (zero from `L` on, stale coefficients included). -/
theorem Sub_equal_len_spec (p p1 p2 : Nat) (st : Mem F) (hvp : st.Valid (st.vars p))
    (hv1 : st.Valid (st.vars p1)) (hv2 : st.Valid (st.vars p2))
    (ha1 : (st.vars p1).arr < st.next) (ha2 : (st.vars p2).arr < st.next)
    (hal1 : p1 = p ∨ (st.vars p1).arr ≠ (st.vars p).arr)
    (hal2 : p2 = p ∨ (st.vars p2).arr ≠ (st.vars p).arr)
    (hlen : (st.vars p1).len = (st.vars p2).len) :
    ∃ st2, Sub p p1 p2 st = .ok st2 ∧
      (st2.vars p).len = max (st.vars p).len (st.vars p1).len ∧
      (∀ q, q ≠ p → st2.vars q = st.vars q) ∧
      ∀ i, st2.coeff (st2.vars p) i
        = st.coeff (st.vars p1) i - st.coeff (st.vars p2) i := by
  have hsort : sort (st.vars p1) (st.vars p2) = (st.vars p1, st.vars p2) := by
    unfold sort
    simp [hlen]
  obtain ⟨st1, hres, hlen1, hcap1, _, _, hvars1, _⟩ :=
    resize_spec p (st.vars p1) (st.vars p2) st hvp.1
  have hx1 : st.vars p1 = st.vars p ∨ (st.vars p1).arr ≠ (st.vars p).arr := by
    rcases hal1 with h | h
    · left; rw [h]
    · right; exact h
  have hx2 : st.vars p2 = st.vars p ∨ (st.vars p2).arr ≠ (st.vars p).arr := by
    rcases hal2 with h | h
    · left; rw [h]
    · right; exact h
  have hidx1 : ∀ i, i < (st.vars p1).len →
      st1.index (st.vars p1) i = some (st.coeff (st.vars p1) i) := by
    intro i hi
    rw [← index_eq_some_coeff st _ hv1 i hi]
    unfold Mem.index
    rw [resize_keeps_operand p _ _ (st.vars p1) st st1 hvp.1 ha1 hx1 hres i hi]
  have hidx2 : ∀ i, i < (st.vars p1).len →
      st1.index (st.vars p2) i = some (st.coeff (st.vars p2) i) := by
    intro i hi
    rw [← index_eq_some_coeff st _ hv2 i (by omega)]
    unfold Mem.index
    rw [resize_keeps_operand p _ _ (st.vars p2) st st1 hvp.1 ha2 hx2 hres i (by omega)]
  obtain ⟨st2, hrun, hvars2, _, _, hco⟩ :=
    sorted_loops_spec (fun x y => x - y) p (st.vars p1) (st.vars p2) st1 (st.vars p1).len rfl
      hlen.symm (by rw [hlen1]; omega) hcap1 _ _ hidx1 hidx2
  refine ⟨st2, ?_, ?_, ?_, fun i => ?_⟩
  · unfold Sub
    rw [hsort, hres]
    simp only [Outcome.andThen]
    unfold subSorted
    exact hrun
  · rw [hvars2, hlen1, ← hlen, max_self]
  · intro q hq
    rw [hvars2]
    exact hvars1 q hq
  · rw [hvars2, hco i]
    by_cases hi : i < (st.vars p1).len
    · rw [if_pos hi]
    · rw [if_neg hi, coeff_eq_zero st _ i (by omega), coeff_eq_zero st _ i (by omega)]
      simp

end AddSubProofs

/-! ## Neg -/

section NegProofs
variable [CommRing F]

/-- `Neg` with the operand being the receiver itself or living in another
array: the call returns, the receiver takes over the header of the operand,
so it has the length of `p1`, and its coefficient at every index is the
negation of the coefficient `p1` had before the call. -/
theorem Neg_spec (p p1 : Nat) (st : Mem F) (hvp : st.Valid (st.vars p))
    (hv1 : st.Valid (st.vars p1)) (ha1 : (st.vars p1).arr < st.next)
    (hal : p1 = p ∨ (st.vars p1).arr ≠ (st.vars p).arr) :
    ∃ st2, Neg p p1 st = .ok st2 ∧ (st2.vars p).len = (st.vars p1).len ∧
      (p1 ≠ p → st2.vars p = st.vars p1) ∧
      (∀ i, st2.coeff (st2.vars p) i = -st.coeff (st.vars p1) i) ∧
      (st2.vars p).len ≤ (st2.heap (st2.vars p).arr).length := by
  obtain ⟨st1, hres, hlen1, hcap1, hview1, harr1, hvars1, hheap1⟩ :=
    resize_spec p (st.vars p1) (st.vars p) st hvp.1
  have hx : st.vars p1 = st.vars p ∨ (st.vars p1).arr ≠ (st.vars p).arr := by
    rcases hal with h | h
    · left; rw [h]
    · right; exact h
  have hkeep := resize_keeps_operand p (st.vars p1) (st.vars p) (st.vars p1) st st1 hvp.1 ha1
    hx hres
  have hhdr : (st1.vars p1).len = (st.vars p1).len
      ∧ (st1.vars p1).arr = (st1.vars p1).arr
      ∧ (st1.vars p1).len ≤ (st1.heap (st1.vars p1).arr).length
      ∧ (p1 ≠ p → st1.vars p1 = st.vars p1)
      ∧ ∀ i, i < (st.vars p1).len →
          (st1.heap (st1.vars p1).arr)[i]? = some (st.coeff (st.vars p1) i) := by
    by_cases hpp : p1 = p
    · subst hpp
      have hl : (st1.vars p1).len = (st.vars p1).len := by rw [hlen1]; omega
      refine ⟨hl, rfl, hcap1, fun h => absurd rfl h, fun i hi => ?_⟩
      have h1 := congrArg (fun l : List F => l[i]?) hview1
      simp only [view_getElem?] at h1
      rw [if_pos (by omega), List.getElem?_append_left (by simp [Mem.view, hv1.1]; omega),
        view_getElem?, if_pos hi] at h1
      rw [h1, ← index_eq_some_coeff st _ hv1 i hi]
      simp [Mem.index, hi]
    · have hd : (st.vars p1).arr ≠ (st.vars p).arr := by
        rcases hal with h | h
        · exact absurd h hpp
        · exact h
      rw [hvars1 p1 hpp]
      refine ⟨rfl, rfl, ?_, fun _ => rfl, fun i hi => ?_⟩
      · have hne : (st.vars p1).arr ≠ (st1.vars p).arr := by
          rcases harr1 with ⟨h, _, _⟩ | ⟨h, _⟩
          · rw [h]; exact hd
          · rw [h]; omega
        rw [hheap1 _ hne]; exact hv1.1
      · rw [hkeep i hi, ← index_eq_some_coeff st _ hv1 i hi]
        simp [Mem.index, hi]
  obtain ⟨hl, _, hcap, hsame, hcells⟩ := hhdr
  obtain ⟨sts, hsts⟩ : ∃ sts : Mem F, sts = st1.setVar p (st1.vars p1) := ⟨_, rfl⟩
  have hsvar : sts.vars p = st1.vars p1 := by rw [hsts]; simp [Mem.setVar]
  have hsheap : sts.heap = st1.heap := by rw [hsts]; rfl
  obtain ⟨st2, hrun, hvars2, _, hlens2, hcells2⟩ :=
    forRange_store p (fun (st : Mem F) i => (st.index (st.vars p) i).map fun a => -a)
      (fun s1 s2 i hv h => by
        beta_reduce
        rw [hv, index_congr s1 s2 _ i h])
      (st.vars p1).len 0 sts (fun i => -st.coeff (st.vars p1) i)
      (fun i _ hi => by
        beta_reduce
        have : sts.index (sts.vars p) i = some (st.coeff (st.vars p1) i) := by
          unfold Mem.index
          rw [hsvar, hl, if_pos (by omega), hsheap, hcells i (by omega)]
        rw [this]
        rfl)
      (by rw [hsvar, hl]; omega)
      (by rw [hsvar, hsheap]; exact hcap)
  refine ⟨st2, ?_, by rw [hvars2, hsvar, hl], fun h => by rw [hvars2, hsvar]; exact hsame h,
    fun i => ?_, by rw [hvars2, hsvar, hlens2, hsheap]; exact hcap⟩
  · unfold Neg
    rw [hres]
    simp only [Outcome.andThen]
    rw [← hsts, hsvar, hl]
    exact hrun
  · unfold Mem.coeff Mem.index
    rw [hcells2, hvars2, hsvar, hl]
    by_cases hi : i < (st.vars p1).len
    · have h1 : (st1.vars p1).arr = (st1.vars p1).arr ∧ 0 ≤ i ∧ i < 0 + (st.vars p1).len :=
        ⟨rfl, Nat.zero_le _, by omega⟩
      rw [if_pos hi, if_pos h1]
      rfl
    · rw [if_neg hi, if_neg hi]
      simp

end NegProofs

/-! ## Copy -/

section CopyProofs
variable [CommRing F]

/-- `Copy` allocates: the result is a header of the same length on a fresh
array that holds the same coefficients; no variable and no existing array
changes. -/
theorem Copy_spec (st : Mem F) (p : Slice) (hv : p.len ≤ (st.heap p.arr).length)
    (ha : p.arr < st.next) :
    (Copy st p).1 = ⟨st.next, p.len⟩ ∧ (Copy st p).2.view (Copy st p).1 = st.view p ∧
      (Copy st p).2.heap st.next = st.view p ∧
      (Copy st p).2.vars = st.vars ∧ (Copy st p).2.next = st.next + 1 ∧
      ∀ a, a ≠ st.next → (Copy st p).2.heap a = st.heap a := by
  have hne : p.arr ≠ st.next := by omega
  have hl : (st.view p).length = p.len := by simp [Mem.view, hv]
  have hview : (st.make p.len p.len).2.view p = st.view p := by
    simp [Mem.view, Mem.make, Mem.alloc, Function.update_noteq hne]
  have hheap : (Copy st p).2.heap st.next = st.view p := by
    unfold Copy
    simp only
    rw [Mem.copy, hview]
    simp only [Mem.make, Mem.overwrite, Mem.setArr, Mem.alloc, Function.update_same]
    rw [List.take_of_length_le (by omega), hl]
    simp
  refine ⟨rfl, ?_, hheap, rfl, rfl, fun a hne2 => ?_⟩
  · show List.take p.len ((Copy st p).2.heap st.next) = st.view p
    rw [hheap, ← hl, List.take_length]
  · unfold Copy
    simp only
    rw [Mem.copy, hview]
    simp [Mem.make, Mem.overwrite, Mem.setArr, Mem.alloc, Function.update_noteq hne2]

/-- `c := x.Copy()`: the variable `c` gets a header of the same length on the
fresh array, which holds the coefficients of `x`; the variable `x` and every
existing array stay as they were. -/
theorem CopyTo_spec (c x : Nat) (st : Mem F) (hv : (st.vars x).len ≤ (st.heap (st.vars x).arr).length)
    (hax : (st.vars x).arr < st.next) (hcx : c ≠ x) :
    (CopyTo c x st).vars c = ⟨st.next, (st.vars x).len⟩
      ∧ (CopyTo c x st).vars x = st.vars x
      ∧ (CopyTo c x st).next = st.next + 1
      ∧ (CopyTo c x st).heap st.next = st.view (st.vars x)
      ∧ ∀ a, a ≠ st.next → (CopyTo c x st).heap a = st.heap a := by
  obtain ⟨h1, _, h3, h4, h5, h6⟩ := Copy_spec st (st.vars x) hv hax
  refine ⟨?_, ?_, h5, h3, h6⟩
  · simp [CopyTo, Mem.setVar, h1]
  · simp only [CopyTo, Mem.setVar, Function.update_noteq (Ne.symm hcx)]
    rw [h4]

end CopyProofs

/-! ## NextPowerOfTwo and NewDomain -/

section PowerOfTwo

theorem NextPowerOfTwo_exp_spec (n : Nat) :
    ∀ (fuel k : Nat), n ≤ 2 ^ (k + fuel) → (k = 0 ∨ 2 ^ (k - 1) < n) →
      n ≤ 2 ^ NextPowerOfTwo.exp n fuel k ∧
        (NextPowerOfTwo.exp n fuel k = 0 ∨ 2 ^ (NextPowerOfTwo.exp n fuel k - 1) < n) := by
  intro fuel
  induction fuel with
  | zero => intro k h1 h2; exact ⟨by simpa [NextPowerOfTwo.exp] using h1, h2⟩
  | succ fuel ih =>
    intro k h1 h2
    rw [NextPowerOfTwo.exp]
    by_cases h : n ≤ 2 ^ k
    · rw [if_pos h]; exact ⟨h, h2⟩
    · rw [if_neg h]
      exact ih (k + 1) (by rw [show k + 1 + fuel = k + (fuel + 1) by omega]; exact h1)
        (Or.inr (by simpa using Nat.not_le.mp h))

theorem le_NextPowerOfTwo (n : Nat) : n ≤ NextPowerOfTwo n :=
  (NextPowerOfTwo_exp_spec n n 0 (by simpa using (Nat.lt_two_pow n).le) (Or.inl rfl)).1

theorem NextPowerOfTwo_exp_two_pow (k : Nat) : NextPowerOfTwo.exp (2 ^ k) (2 ^ k) 0 = k := by
  obtain ⟨h1, h2⟩ := NextPowerOfTwo_exp_spec (2 ^ k) (2 ^ k) 0
    (by simpa using (Nat.lt_two_pow (2 ^ k)).le) (Or.inl rfl)
  have hle : k ≤ NextPowerOfTwo.exp (2 ^ k) (2 ^ k) 0 :=
    (Nat.pow_le_pow_iff_right (by norm_num)).mp h1
  rcases h2 with h2 | h2
  · omega
  · have := (Nat.pow_lt_pow_iff_right (by norm_num : 1 < 2)).mp h2
    omega

theorem NextPowerOfTwo_two_pow (k : Nat) : NextPowerOfTwo (2 ^ k) = 2 ^ k := by
  unfold NextPowerOfTwo
  rw [NextPowerOfTwo_exp_two_pow]

theorem NextPowerOfTwo_eq_two_pow (n : Nat) : ∃ k, NextPowerOfTwo n = 2 ^ k := ⟨_, rfl⟩

variable [Field F]

/-- For a supported power-of-two size the domain exists, has that size, and
its generator is a primitive root of unity of that order. -/
theorem NewDomain_two_pow (cfg : FFTParams F) (k : Nat) (hk : k ≤ cfg.maxOrderRoot)
    (hroot : IsPrimitiveRoot cfg.rootOfUnity (2 ^ cfg.maxOrderRoot)) :
    ∃ d, NewDomain cfg (2 ^ k) = some d ∧ IsPrimitiveRoot d.Generator (2 ^ k) ∧
      d.GeneratorInv = d.Generator⁻¹ ∧ d.CardinalityInv = ((2 ^ k : Nat) : F)⁻¹ := by
  unfold NewDomain
  simp only [NextPowerOfTwo_exp_two_pow, Nat.not_lt.mpr hk, if_false]
  refine ⟨_, rfl, ?_, rfl, rfl⟩
  apply IsPrimitiveRoot.pow (Nat.pos_pow_of_pos _ (by norm_num)) hroot
  rw [← pow_add]
  congr 1
  omega

end PowerOfTwo

/-! ## Multiplication -/

section MulProofs

theorem Mul_eq_withSize [CommRing F] [Inv F] [DecidableEq F] (cfg : FFTParams F)
    (p p1 p2 m : Nat) (st : Mem F) (hm : Mul.size st p1 p2 = some m) :
    Mul cfg p p1 p2 st
      = Mul.withSize cfg p (sort (st.vars p1) (st.vars p2)).1
          (sort (st.vars p1) (st.vars p2)).2 m st := by
  unfold Mul.size at hm
  unfold Mul
  simp only at hm ⊢
  split at hm
  · simp only [Option.some.injEq] at hm
    split at hm
    · rename_i hlt
      simp only [hlt, if_true]; rw [hm]
    · rename_i hlt
      simp only [hlt, if_false]; rw [hm]
  · cases hm

theorem overwrite_heap_self (st : Mem F) (s : Slice) (l : List F)
    (hl : (st.heap s.arr).length ≤ l.length) : (st.overwrite s l).heap s.arr = l := by
  simp [Mem.overwrite, Mem.setArr, List.drop_eq_nil_of_le hl]

theorem overwrite_heap_other (st : Mem F) (s : Slice) (l : List F) (a : Nat) (ha : a ≠ s.arr) :
    (st.overwrite s l).heap a = st.heap a := by
  simp [Mem.overwrite, Mem.setArr, Function.update_noteq ha]

/-- The padded copies made by `Mul`: two fresh arrays of size `m` holding the
operands followed by zeros; nothing else changes. -/
theorem Mul_copies_spec [Zero F] (q1 q2 : Slice) (m : Nat) (st : Mem F)
    (hq1 : q1.len ≤ (st.heap q1.arr).length) (hq2 : q2.len ≤ (st.heap q2.arr).length)
    (hq1a : q1.arr < st.next) (hq2a : q2.arr < st.next) (h1 : q1.len ≤ m) (h2 : q2.len ≤ m) :
    (((st.make m m).2.make m m).2.copy (st.make m m).1 q1).copy
        ((st.make m m).2.make m m).1 q2
      = { vars := st.vars,
          heap := Function.update (Function.update st.heap st.next
              (st.view q1 ++ List.replicate (m - q1.len) 0))
            (st.next + 1) (st.view q2 ++ List.replicate (m - q2.len) 0),
          next := st.next + 2 } := by
  have hn1 : q1.arr ≠ st.next := by omega
  have hn1b : q1.arr ≠ st.next + 1 := by omega
  have hn2 : q2.arr ≠ st.next := by omega
  have hn2b : q2.arr ≠ st.next + 1 := by omega
  have hl1 : (st.view q1).length = q1.len := by simp [Mem.view, hq1]
  have hl2 : (st.view q2).length = q2.len := by simp [Mem.view, hq2]
  have hv1 : ((st.make m m).2.make m m).2.view q1 = st.view q1 := by
    simp [Mem.view, Mem.make, Mem.alloc, Function.update_noteq hn1, Function.update_noteq hn1b]
  have hv2 : (((st.make m m).2.make m m).2.copy (st.make m m).1 q1).view q2 = st.view q2 := by
    simp [Mem.view, Mem.make, Mem.alloc, Mem.copy, Mem.overwrite, Mem.setArr,
      Function.update_noteq hn2, Function.update_noteq hn2b]
  have ht1 : (st.view q1).take m = st.view q1 := List.take_of_length_le (by omega)
  have ht2 : (st.view q2).take m = st.view q2 := List.take_of_length_le (by omega)
  rw [Mem.copy, hv2, Mem.copy, hv1]
  simp only [Mem.make, ht1, ht2, Mem.overwrite, Mem.setArr, Mem.alloc, hl1, hl2,
    Function.update_same, List.drop_replicate,
    Function.update_noteq (show st.next ≠ st.next + 1 by omega)]
  congr 1
  funext a
  by_cases ha1 : a = st.next + 1
  · subst ha1; simp
  · by_cases ha0 : a = st.next
    · subst ha0; simp [Function.update_noteq ha1]
    · simp [Function.update_noteq ha1, Function.update_noteq ha0]

variable [Field F]

theorem mul_spec (cfg : FFTParams F) (p a2 a3 m : Nat) (st : Mem F) (A B : List F)
    (d : Domain F) (hlen : (st.vars p).len = m) (hcap : m ≤ (st.heap (st.vars p).arr).length)
    (hA : st.heap a2 = A) (hB : st.heap a3 = B) (hAl : A.length = m) (hBl : B.length = m)
    (h23 : a2 ≠ a3) (hp2 : a2 ≠ (st.vars p).arr) (hp3 : a3 ≠ (st.vars p).arr)
    (hd : NewDomain cfg (m % 2 ^ 64) = some d) :
    ∃ st2, mul cfg p ⟨a2, m⟩ ⟨a3, m⟩ st = .ok st2 ∧ st2.vars = st.vars ∧
      st2.view (st.vars p)
        = FFTInverse d (List.zipWith (fun a b => a * b) (FFT d A) (FFT d B)) := by
  obtain ⟨stf, hz, hvarsf, hnextf, hlensf, hotherf, hviewf⟩ := SetZero_spec p st (by omega)
  have hfA : stf.heap a2 = A := by rw [hotherf a2 hp2, hA]
  have hfB : stf.heap a3 = B := by rw [hotherf a3 hp3, hB]
  have hvA : stf.view ⟨a2, m⟩ = A := by
    show List.take m (stf.heap a2) = A
    rw [hfA, ← hAl, List.take_length]
  have hFAl : (FFT d A).length = m := by simp [FFT, hAl]
  have hFBl : (FFT d B).length = m := by simp [FFT, hBl]
  have hgA : (stf.overwrite ⟨a2, m⟩ (FFT d A)).heap a2 = FFT d A :=
    overwrite_heap_self stf ⟨a2, m⟩ (FFT d A) (by simp [hfA, hAl, hFAl])
  have hgB : (stf.overwrite ⟨a2, m⟩ (FFT d A)).heap a3 = B := by
    rw [overwrite_heap_other stf ⟨a2, m⟩ _ a3 (Ne.symm h23), hfB]
  have hvB : (stf.overwrite ⟨a2, m⟩ (FFT d A)).view ⟨a3, m⟩ = B := by
    show List.take m ((stf.overwrite ⟨a2, m⟩ (FFT d A)).heap a3) = B
    rw [hgB, ← hBl, List.take_length]
  obtain ⟨sth, hsth⟩ : ∃ sth : Mem F,
      sth = (stf.overwrite ⟨a2, m⟩ (FFT d A)).overwrite ⟨a3, m⟩ (FFT d B) := ⟨_, rfl⟩
  have hhA : sth.heap a2 = FFT d A := by
    rw [hsth, overwrite_heap_other _ ⟨a3, m⟩ _ a2 h23, hgA]
  have hhB : sth.heap a3 = FFT d B := by
    rw [hsth]
    exact overwrite_heap_self _ ⟨a3, m⟩ (FFT d B) (by simp [hgB, hBl, hFBl])
  have hhp : sth.heap (st.vars p).arr = stf.heap (st.vars p).arr := by
    rw [hsth, overwrite_heap_other _ ⟨a3, m⟩ _ _ (Ne.symm hp3),
      overwrite_heap_other _ ⟨a2, m⟩ _ _ (Ne.symm hp2)]
  have hhvars : sth.vars = st.vars := by rw [hsth]; exact hvarsf
  have hZl : (List.zipWith (fun a b => a * b) (FFT d A) (FFT d B)).length = m := by
    simp [hFAl, hFBl]
  obtain ⟨sti, hrun, hvarsi, _, hlensi, hcellsi⟩ :=
    forRange_store p
      (fun (st : Mem F) i =>
        (st.index ⟨a2, m⟩ i).bind fun a => (st.index ⟨a3, m⟩ i).map fun b => a * b)
      (fun s1 s2 i _ h => by
        simp only [index_congr s1 s2 ⟨a2, m⟩ i h, index_congr s1 s2 ⟨a3, m⟩ i h])
      m 0 sth
      (fun i => (List.zipWith (fun a b => a * b) (FFT d A) (FFT d B)).getD i 0)
      (fun i _ hi => by
        have hi2 : i < m := by omega
        have h1 : sth.index ⟨a2, m⟩ i = some ((FFT d A)[i]) := by
          simp [Mem.index, hi2, hhA, List.getElem?_eq_getElem (hFAl.symm ▸ hi2)]
        have h2 : sth.index ⟨a3, m⟩ i = some ((FFT d B)[i]) := by
          simp [Mem.index, hi2, hhB, List.getElem?_eq_getElem (hFBl.symm ▸ hi2)]
        beta_reduce
        rw [h1, h2, List.getD_eq_getElem _ _ (hZl.symm ▸ hi2)]
        simp)
      (by rw [hhvars, hlen]; omega)
      (by rw [hhvars, hhp, hlensf, hlen]; exact hcap)
  have hviewi : sti.view (st.vars p)
      = List.zipWith (fun a b => a * b) (FFT d A) (FFT d B) := by
    apply List.ext_getElem?
    intro j
    rw [view_getElem?, hcellsi, hhvars, hlen]
    by_cases hj : j < m
    · have : (st.vars p).arr = (st.vars p).arr ∧ 0 ≤ j ∧ j < 0 + m :=
        ⟨rfl, Nat.zero_le _, by omega⟩
      rw [if_pos hj, if_pos this, List.getD_eq_getElem _ _ (hZl.symm ▸ hj),
        List.getElem?_eq_getElem (hZl.symm ▸ hj)]
    · rw [if_neg hj, List.getElem?_eq_none (by rw [hZl]; omega)]
  refine ⟨sti.overwrite (sti.vars p) (FFTInverse d (sti.view (sti.vars p))), ?_, ?_, ?_⟩
  · unfold mul
    rw [hz]
    simp only [Outcome.andThen, hvarsf, hlen, hd, hvA, hvB]
    rw [← hsth, show (sth.vars p).len = m by rw [hhvars, hlen], hrun]
  · exact hvarsi.trans hhvars
  · rw [hvarsi, hhvars, hviewi]
    have hFIl : (FFTInverse d (List.zipWith (fun a b => a * b) (FFT d A) (FFT d B))).length
        = m := by simp [FFTInverse, hZl]
    simp only [Mem.view, Mem.overwrite, Mem.setArr, Function.update_same, hlen]
    rw [List.take_append_of_le_length (by omega), List.take_of_length_le (by omega)]

/-- `Mul` at transform size `m`, for a receiver of length at most `m`: the
call returns, the receiver has length `m` and holds the inverse transform of
the pointwise product of the transforms of the padded operands. -/
theorem Mul_withSize_spec (cfg : FFTParams F) (p : Nat) (q1 q2 : Slice) (m : Nat)
    (st : Mem F) (d : Domain F)
    (hq1 : q1.len ≤ (st.heap q1.arr).length) (hq2 : q2.len ≤ (st.heap q2.arr).length)
    (hq1a : q1.arr < st.next) (hq2a : q2.arr < st.next) (h1 : q1.len ≤ m) (h2 : q2.len ≤ m)
    (hp : (st.vars p).len ≤ (st.heap (st.vars p).arr).length)
    (hpa : (st.vars p).arr < st.next) (hpm : (st.vars p).len ≤ m)
    (hd : NewDomain cfg (m % 2 ^ 64) = some d) :
    ∃ st2, Mul.withSize cfg p q1 q2 m st = .ok st2 ∧ (st2.vars p).len = m ∧
      st2.view (st2.vars p) = FFTInverse d (List.zipWith (fun a b => a * b)
        (FFT d (st.view q1 ++ List.replicate (m - q1.len) 0))
        (FFT d (st.view q2 ++ List.replicate (m - q2.len) 0))) := by
  have hl1 : (st.view q1).length = q1.len := by simp [Mem.view, hq1]
  have hl2 : (st.view q2).length = q2.len := by simp [Mem.view, hq2]
  obtain ⟨std, hstd⟩ : ∃ std : Mem F, std = Mem.mk st.vars
      (Function.update (Function.update st.heap st.next
          (st.view q1 ++ List.replicate (m - q1.len) 0))
        (st.next + 1) (st.view q2 ++ List.replicate (m - q2.len) 0))
      (st.next + 2) := ⟨_, rfl⟩
  have hdvars : std.vars = st.vars := by rw [hstd]
  have hdnext : std.next = st.next + 2 := by rw [hstd]
  have hdA : std.heap st.next = st.view q1 ++ List.replicate (m - q1.len) 0 := by
    rw [hstd]
    simp [Function.update_noteq (show st.next ≠ st.next + 1 by omega)]
  have hdB : std.heap (st.next + 1) = st.view q2 ++ List.replicate (m - q2.len) 0 := by
    rw [hstd]; simp
  have hdp : std.heap (st.vars p).arr = st.heap (st.vars p).arr := by
    rw [hstd]
    simp [Function.update_noteq (show (st.vars p).arr ≠ st.next + 1 by omega),
      Function.update_noteq (show (st.vars p).arr ≠ st.next by omega)]
  have hres : resize p ⟨st.next, m⟩ ⟨st.next + 1, m⟩ std
      = pad p ((m - (st.vars p).len : Nat) : Int) std := by
    unfold resize sort
    have hnot : ¬(m < (st.vars p).len ∧ m < (st.vars p).len) := by omega
    simp only [gt_iff_lt, lt_self_iff_false, hdvars, if_false]
    rw [if_neg hnot, Nat.cast_sub hpm]
  obtain ⟨ste, hpad, helen, hecap, _, hearr, _, heother⟩ :=
    pad_spec p (m - (st.vars p).len) std (by rw [hdvars, hdp]; exact hp)
  have helen2 : (ste.vars p).len = m := by rw [helen, hdvars]; omega
  have hearr2 : (ste.vars p).arr ≠ st.next ∧ (ste.vars p).arr ≠ st.next + 1 := by
    rcases hearr with ⟨h, _, _⟩ | ⟨h, _⟩
    · rw [h, hdvars]; omega
    · rw [h, hdnext]; omega
  obtain ⟨st2, hmul, hvars2, hview2⟩ :=
    mul_spec cfg p st.next (st.next + 1) m ste _ _ d helen2 (by rw [← helen2]; exact hecap)
      (by rw [heother _ (Ne.symm hearr2.1), hdA])
      (by rw [heother _ (Ne.symm hearr2.2), hdB])
      (by simp [hl1]; omega) (by simp [hl2]; omega) (by omega)
      (Ne.symm hearr2.1) (Ne.symm hearr2.2) hd
  refine ⟨st2, ?_, by rw [hvars2, helen2], by rw [hvars2]; exact hview2⟩
  unfold Mul.withSize
  simp only
  rw [Mul_copies_spec q1 q2 m st hq1 hq2 hq1a hq2a h1 h2, ← hstd]
  show (resize p ⟨st.next, m⟩ ⟨st.next + 1, m⟩ std).andThen
    (mul cfg p ⟨st.next, m⟩ ⟨st.next + 1, m⟩) = _
  rw [hres, hpad]
  exact hmul

/-- The size chosen from the degrees of the (sorted) operands is `n` or
`2 * n`, and no product of two coefficients lands at that degree or above. -/
theorem size_no_wrap [DecidableEq F] (st : Mem F) (q1 q2 : Slice) (hv1 : st.Valid q1)
    (hv2 : st.Valid q2) (hle : q2.len ≤ q1.len) (hn : NextPowerOfTwo q1.len < 2 ^ 63)
    (d1 d2 : Nat) (hd1 : Degree st q1 = some d1) (hd2 : Degree st q2 = some d2) :
    ((if (d1 + d2) % 2 ^ 64 < NextPowerOfTwo (q1.len % 2 ^ 64)
        then NextPowerOfTwo (q1.len % 2 ^ 64)
        else 2 * NextPowerOfTwo (q1.len % 2 ^ 64) % 2 ^ 64) = NextPowerOfTwo q1.len
      ∨ (if (d1 + d2) % 2 ^ 64 < NextPowerOfTwo (q1.len % 2 ^ 64)
        then NextPowerOfTwo (q1.len % 2 ^ 64)
        else 2 * NextPowerOfTwo (q1.len % 2 ^ 64) % 2 ^ 64) = 2 * NextPowerOfTwo q1.len)
    ∧ ∀ i j, (if (d1 + d2) % 2 ^ 64 < NextPowerOfTwo (q1.len % 2 ^ 64)
        then NextPowerOfTwo (q1.len % 2 ^ 64)
        else 2 * NextPowerOfTwo (q1.len % 2 ^ 64) % 2 ^ 64) ≤ i + j →
      st.coeff q1 i * st.coeff q2 j = 0 := by
  have hlen : q1.len < 2 ^ 63 := lt_of_le_of_lt hv1.1 hv1.2
  have hmod : q1.len % 2 ^ 64 = q1.len := Nat.mod_eq_of_lt (by omega)
  have h2n : 2 * NextPowerOfTwo q1.len % 2 ^ 64 = 2 * NextPowerOfTwo q1.len :=
    Nat.mod_eq_of_lt (by omega)
  have hsn := le_NextPowerOfTwo q1.len
  rw [hmod, h2n]
  refine ⟨by split <;> simp, fun i j hij => ?_⟩
  by_contra hne
  have hi : st.coeff q1 i ≠ 0 := fun h => hne (by rw [h, zero_mul])
  have hj : st.coeff q2 j ≠ 0 := fun h => hne (by rw [h, mul_zero])
  obtain ⟨e1, he1, he1lt, _, he1ab⟩ := Degree_nonzero st q1 hv1 ⟨i, hi⟩
  obtain ⟨e2, he2, he2lt, _, he2ab⟩ := Degree_nonzero st q2 hv2 ⟨j, hj⟩
  rw [hd1] at he1
  rw [hd2] at he2
  have h1 : d1 = e1 := Option.some.inj he1
  have h2 : d2 = e2 := Option.some.inj he2
  subst h1 h2
  have hi2 : i ≤ d1 := by
    by_contra h
    exact hi (he1ab i (by omega))
  have hj2 : j ≤ d2 := by
    by_contra h
    exact hj (he2ab j (by omega))
  have hsum : (d1 + d2) % 2 ^ 64 = d1 + d2 := Nat.mod_eq_of_lt (by omega)
  rw [hsum] at hij
  split at hij <;> omega

theorem getD_padded (st : Mem F) (q : Slice) (k i : Nat) :
    (st.view q ++ List.replicate k 0).getD i 0 = st.coeff q i := by
  unfold Mem.coeff
  rw [index_eq_view, List.getD_eq_getElem?_getD]
  by_cases hi : i < (st.view q).length
  · rw [List.getElem?_append_left hi]
  · rw [List.getElem?_append_right (Nat.not_lt.mp hi),
      List.getElem?_eq_none (Nat.not_lt.mp hi), List.getElem?_replicate]
    split <;> rfl

/-- `Mul` at a power-of-two size `2 ^ e` supported by the field, for sorted
operands that fit and whose coefficient products do not reach degree `2 ^ e`:
the receiver ends up with length `2 ^ e` and the coefficients of the product
of the two polynomials. -/
theorem Mul_withSize_product (cfg : FFTParams F) (p : Nat) (q1 q2 : Slice) (e : Nat)
    (st : Mem F)
    (hq1 : q1.len ≤ (st.heap q1.arr).length) (hq2 : q2.len ≤ (st.heap q2.arr).length)
    (hq1a : q1.arr < st.next) (hq2a : q2.arr < st.next)
    (h1 : q1.len ≤ 2 ^ e) (h2 : q2.len ≤ 2 ^ e)
    (hp : (st.vars p).len ≤ (st.heap (st.vars p).arr).length)
    (hpa : (st.vars p).arr < st.next) (hpm : (st.vars p).len ≤ 2 ^ e)
    (hroot : IsPrimitiveRoot cfg.rootOfUnity (2 ^ cfg.maxOrderRoot)) (htwo : (2 : F) ≠ 0)
    (he : e ≤ cfg.maxOrderRoot) (hmax : cfg.maxOrderRoot < 64)
    (hnowrap : ∀ i j, 2 ^ e ≤ i + j → st.coeff q1 i * st.coeff q2 j = 0) :
    ∃ st2, Mul.withSize cfg p q1 q2 (2 ^ e) st = .ok st2 ∧ (st2.vars p).len = 2 ^ e ∧
      ∀ k, st2.coeff (st2.vars p) k
        = ∑ ij in Finset.antidiagonal k, st.coeff q1 ij.1 * st.coeff q2 ij.2 := by
  obtain ⟨d, hd, hg, hginv, hcinv⟩ := NewDomain_two_pow cfg e he hroot
  have hlt : 2 ^ e < 2 ^ 64 :=
    Nat.pow_lt_pow_right (by norm_num) (by omega)
  have hl1 : (st.view q1).length = q1.len := by simp [Mem.view, hq1]
  have hl2 : (st.view q2).length = q2.len := by simp [Mem.view, hq2]
  obtain ⟨st2, hrun, hlen, hview⟩ :=
    Mul_withSize_spec cfg p q1 q2 (2 ^ e) st d hq1 hq2 hq1a hq2a h1 h2 hp hpa hpm
      (by rw [Nat.mod_eq_of_lt hlt]; exact hd)
  have hm0 : ((2 ^ e : Nat) : F) ≠ 0 := by
    rw [Nat.cast_pow]
    exact pow_ne_zero _ (by exact_mod_cast htwo)
  have hprod := FFTInverse_zipWith_FFT d (2 ^ e)
    (st.view q1 ++ List.replicate (2 ^ e - q1.len) 0)
    (st.view q2 ++ List.replicate (2 ^ e - q2.len) 0)
    (by simp [hl1]; omega) (by simp [hl2]; omega) hg hginv hcinv hm0
    (fun i j hij => by rw [getD_padded, getD_padded]; exact hnowrap i j hij)
  simp only [getD_padded] at hprod
  refine ⟨st2, hrun, hlen, fun k => ?_⟩
  unfold Mem.coeff
  rw [index_eq_view, hview, hprod]
  by_cases hk : k < 2 ^ e
  · simp [hk]
    rfl
  · rw [List.getElem?_eq_none (by simp; omega)]
    symm
    apply Finset.sum_eq_zero
    intro ij hij
    have := Finset.mem_antidiagonal.mp hij
    exact hnowrap ij.1 ij.2 (by omega)

theorem Degree_isSome [DecidableEq F] (st : Mem F) (p : Slice) (hv : st.Valid p) :
    ∃ d, Degree st p = some d := by
  rcases Degree_cases st p hv with ⟨d, hd, _⟩ | ⟨hd, _⟩
  · exact ⟨d, hd⟩
  · exact ⟨_, hd⟩

theorem sort_cases (s1 s2 : Slice) :
    ((sort s1 s2).1 = s2 ∧ (sort s1 s2).2 = s1 ∧ s1.len < s2.len)
      ∨ ((sort s1 s2).1 = s1 ∧ (sort s1 s2).2 = s2 ∧ s2.len ≤ s1.len) := by
  unfold sort
  by_cases h : s2.len > s1.len
  · left; simp [h]
  · right; simp [h]; omega

/-- `Mul` over the memory: for allocated, valid operands whose transform
sizes the field supports, and a receiver no longer than the chosen size `m`,
the call returns, the receiver has length `m`, and its coefficient at every
index `k` is the sum over `i + j = k` of `p1[i] * p2[j]`. -/
theorem Mul_product [DecidableEq F] (cfg : FFTParams F) (st : Mem F) (p p1 p2 : Nat)
    (hv1 : st.Valid (st.vars p1)) (hv2 : st.Valid (st.vars p2)) (hvp : st.Valid (st.vars p))
    (ha1 : (st.vars p1).arr < st.next) (ha2 : (st.vars p2).arr < st.next)
    (hap : (st.vars p).arr < st.next)
    (hroot : IsPrimitiveRoot cfg.rootOfUnity (2 ^ cfg.maxOrderRoot)) (htwo : (2 : F) ≠ 0)
    (hmax : cfg.maxOrderRoot < 64)
    (hsize : 2 * NextPowerOfTwo (max (st.vars p1).len (st.vars p2).len)
      ≤ 2 ^ cfg.maxOrderRoot)
    (m : Nat) (hm : Mul.size st p1 p2 = some m) (hrecv : (st.vars p).len ≤ m) :
    ∃ st2, Mul cfg p p1 p2 st = .ok st2 ∧ (st2.vars p).len = m ∧
      ∀ k, st2.coeff (st2.vars p) k
        = ∑ ij in Finset.antidiagonal k,
            st.coeff (st.vars p1) ij.1 * st.coeff (st.vars p2) ij.2 := by
  rw [Mul_eq_withSize cfg p p1 p2 m st hm]
  have hkey : ∀ q1 q2 : Slice, st.Valid q1 → st.Valid q2 → q1.arr < st.next →
      q2.arr < st.next → q2.len ≤ q1.len →
      q1.len = max (st.vars p1).len (st.vars p2).len →
      (sort (st.vars p1) (st.vars p2)).1 = q1 → (sort (st.vars p1) (st.vars p2)).2 = q2 →
      ∃ st2, Mul.withSize cfg p q1 q2 m st = .ok st2 ∧ (st2.vars p).len = m ∧
        ∀ k, st2.coeff (st2.vars p) k
          = ∑ ij in Finset.antidiagonal k, st.coeff q1 ij.1 * st.coeff q2 ij.2 := by
    intro q1 q2 hq1 hq2 hq1a hq2a hle hmaxlen hs1 hs2
    obtain ⟨d1, hd1⟩ := Degree_isSome st q1 hq1
    obtain ⟨d2, hd2⟩ := Degree_isSome st q2 hq2
    have h63 : 2 ^ cfg.maxOrderRoot ≤ 2 ^ 63 :=
      Nat.pow_le_pow_right (by norm_num) (by omega)
    have hn : NextPowerOfTwo q1.len < 2 ^ 63 := by
      rw [hmaxlen]; omega
    obtain ⟨hmn, hnowrap⟩ := size_no_wrap st q1 q2 hq1 hq2 hle hn d1 d2 hd1 hd2
    have hmeq : (if (d1 + d2) % 2 ^ 64 < NextPowerOfTwo (q1.len % 2 ^ 64)
        then NextPowerOfTwo (q1.len % 2 ^ 64)
        else 2 * NextPowerOfTwo (q1.len % 2 ^ 64) % 2 ^ 64) = m := by
      unfold Mul.size at hm
      simp only [hs1, hs2, hd1, hd2, Option.some.injEq] at hm
      exact hm
    rw [hmeq] at hmn hnowrap
    have hsn := le_NextPowerOfTwo q1.len
    obtain ⟨e, hme, hee⟩ : ∃ e, m = 2 ^ e ∧ e ≤ cfg.maxOrderRoot := by
      have hpow : 2 * 2 ^ NextPowerOfTwo.exp q1.len q1.len 0 ≤ 2 ^ cfg.maxOrderRoot := by
        have := hsize
        rw [← hmaxlen] at this
        exact this
      rw [← pow_succ'] at hpow
      have hexp := (Nat.pow_le_pow_iff_right (by norm_num : 1 < 2)).mp hpow
      rcases hmn with h | h
      · exact ⟨NextPowerOfTwo.exp q1.len q1.len 0, h, by omega⟩
      · exact ⟨NextPowerOfTwo.exp q1.len q1.len 0 + 1, by rw [h, pow_succ']; rfl, hexp⟩
    subst hme
    have hq1m : q1.len ≤ 2 ^ e := by
      rcases hmn with h | h <;> omega
    exact Mul_withSize_product cfg p q1 q2 e st hq1.1 hq2.1 hq1a hq2a hq1m (by omega)
      hvp.1 hap hrecv hroot htwo hee hmax hnowrap
  rcases sort_cases (st.vars p1) (st.vars p2) with ⟨hs1, hs2, hlt⟩ | ⟨hs1, hs2, hle⟩
  · obtain ⟨st2, hrun, hlen, hco⟩ := hkey _ _ hv2 hv1 ha2 ha1 (by omega)
      (by rw [max_eq_right (by omega)]) hs1 hs2
    refine ⟨st2, by rw [hs1, hs2]; exact hrun, hlen, fun k => ?_⟩
    rw [hco k, ← Finset.Nat.sum_antidiagonal_swap]
    apply Finset.sum_congr rfl
    intro ij _
    simp only [Prod.fst_swap, Prod.snd_swap]
    ring
  · obtain ⟨st2, hrun, hlen, hco⟩ := hkey _ _ hv1 hv2 ha1 ha2 hle
      (by rw [max_eq_left hle]) hs1 hs2
    exact ⟨st2, by rw [hs1, hs2]; exact hrun, hlen, hco⟩

end MulProofs

/-! ## The transform size chosen by Mul -/

section SizeProofs

theorem Degree_returns [CommRing F] [DecidableEq F] (st : Mem F) (p : Slice)
    (hv : st.Valid p) : ∃ d, Degree st p = some d := by
  rcases Degree_cases st p hv with ⟨d, hd, _⟩ | ⟨hd, _⟩
  · exact ⟨d, hd⟩
  · exact ⟨_, hd⟩

theorem NextPowerOfTwo_le_of_le_two_pow (n k : Nat) (h : n ≤ 2 ^ k) :
    NextPowerOfTwo n ≤ 2 ^ k := by
  obtain ⟨_, h2⟩ := NextPowerOfTwo_exp_spec n n 0
    (by simpa using (Nat.lt_two_pow n).le) (Or.inl rfl)
  unfold NextPowerOfTwo
  apply Nat.pow_le_pow_right (by norm_num)
  rcases h2 with h2 | h2
  · omega
  · have hlt : 2 ^ (NextPowerOfTwo.exp n n 0 - 1) < 2 ^ k := lt_of_lt_of_le h2 h
    have := (Nat.pow_lt_pow_iff_right (by norm_num : 1 < 2)).mp hlt
    omega

/-- With `n` the power of two computed from the longer operand and `da`, `db`
the results of `Degree` on the two operands, `Mul` chooses `n` when
`da + db < n` in `uint64` arithmetic and `2 * n` otherwise. -/
theorem Mul_size_spec [CommRing F] [DecidableEq F] (st : Mem F) (p1 p2 : Nat)
    (hv1 : st.Valid (st.vars p1)) (hv2 : st.Valid (st.vars p2))
    (hn : NextPowerOfTwo (max (st.vars p1).len (st.vars p2).len) < 2 ^ 63) :
    ∃ da db, Degree st (st.vars p1) = some da ∧ Degree st (st.vars p2) = some db ∧
      Mul.size st p1 p2 = some
        (if (da + db) % 2 ^ 64 < NextPowerOfTwo (max (st.vars p1).len (st.vars p2).len)
          then NextPowerOfTwo (max (st.vars p1).len (st.vars p2).len)
          else 2 * NextPowerOfTwo (max (st.vars p1).len (st.vars p2).len)) := by
  obtain ⟨da, hda⟩ := Degree_returns st _ hv1
  obtain ⟨db, hdb⟩ := Degree_returns st _ hv2
  have h1 : (st.vars p1).len < 2 ^ 63 := lt_of_le_of_lt hv1.1 hv1.2
  have h2 : (st.vars p2).len < 2 ^ 63 := lt_of_le_of_lt hv2.1 hv2.2
  have h2n : 2 * NextPowerOfTwo (max (st.vars p1).len (st.vars p2).len) % 2 ^ 64
      = 2 * NextPowerOfTwo (max (st.vars p1).len (st.vars p2).len) :=
    Nat.mod_eq_of_lt (by omega)
  refine ⟨da, db, hda, hdb, ?_⟩
  unfold Mul.size
  rcases sort_cases (st.vars p1) (st.vars p2) with ⟨hs1, hs2, hlt⟩ | ⟨hs1, hs2, hle⟩
  · have hmod : (st.vars p2).len % 2 ^ 64 = (st.vars p2).len := Nat.mod_eq_of_lt (by omega)
    have hmaxe : max (st.vars p1).len (st.vars p2).len = (st.vars p2).len :=
      max_eq_right (by omega)
    rw [hmaxe] at h2n ⊢
    simp only [hs1, hs2, hda, hdb, hmod, h2n, Nat.add_comm db da]
  · have hmod : (st.vars p1).len % 2 ^ 64 = (st.vars p1).len := Nat.mod_eq_of_lt (by omega)
    have hmaxe : max (st.vars p1).len (st.vars p2).len = (st.vars p1).len :=
      max_eq_left hle
    rw [hmaxe] at h2n ⊢
    simp only [hs1, hs2, hda, hdb, hmod, h2n]

/-- The size chosen by `Mul` is a power of two that the field supports
whenever `2 * n` is supported, and both operands fit in it. -/
theorem Mul_size_two_pow [CommRing F] [DecidableEq F] (st : Mem F) (p1 p2 maxOrder : Nat)
    (hv1 : st.Valid (st.vars p1)) (hv2 : st.Valid (st.vars p2)) (hmax : maxOrder < 64)
    (hsize : 2 * NextPowerOfTwo (max (st.vars p1).len (st.vars p2).len) ≤ 2 ^ maxOrder)
    (m : Nat) (hm : Mul.size st p1 p2 = some m) :
    ∃ e, m = 2 ^ e ∧ e ≤ maxOrder ∧ max (st.vars p1).len (st.vars p2).len ≤ m := by
  have h63 : 2 ^ maxOrder ≤ 2 ^ 63 := Nat.pow_le_pow_right (by norm_num) (by omega)
  obtain ⟨da, db, _, _, hsz⟩ := Mul_size_spec st p1 p2 hv1 hv2 (by omega)
  rw [hm] at hsz
  have hmeq := Option.some.inj hsz
  have hle := le_NextPowerOfTwo (max (st.vars p1).len (st.vars p2).len)
  have hpow : 2 ^ (NextPowerOfTwo.exp (max (st.vars p1).len (st.vars p2).len)
      (max (st.vars p1).len (st.vars p2).len) 0 + 1) ≤ 2 ^ maxOrder := by
    rw [pow_succ']; exact hsize
  have hexp := (Nat.pow_le_pow_iff_right (by norm_num : 1 < 2)).mp hpow
  split at hmeq
  · exact ⟨_, hmeq, by omega, by rw [hmeq]; exact hle⟩
  · refine ⟨_, ?_, hexp, by rw [hmeq]; omega⟩
    rw [hmeq, pow_succ']
    rfl

/-- `Mul` returns whenever the receiver is no longer than the chosen transform
size and the field supports the size `2 * n`. -/
theorem Mul_isOk [Field F] [DecidableEq F] (cfg : FFTParams F) (st : Mem F) (p p1 p2 : Nat)
    (hv1 : st.Valid (st.vars p1)) (hv2 : st.Valid (st.vars p2)) (hvp : st.Valid (st.vars p))
    (ha1 : (st.vars p1).arr < st.next) (ha2 : (st.vars p2).arr < st.next)
    (hap : (st.vars p).arr < st.next) (hmax : cfg.maxOrderRoot < 64)
    (hsize : 2 * NextPowerOfTwo (max (st.vars p1).len (st.vars p2).len)
      ≤ 2 ^ cfg.maxOrderRoot)
    (m : Nat) (hm : Mul.size st p1 p2 = some m) (hrecv : (st.vars p).len ≤ m) :
    (Mul cfg p p1 p2 st).isOk = true := by
  rw [Mul_eq_withSize cfg p p1 p2 m st hm]
  obtain ⟨e, hme, hee, hfit⟩ :=
    Mul_size_two_pow st p1 p2 cfg.maxOrderRoot hv1 hv2 hmax hsize m hm
  subst hme
  have hlt : 2 ^ e < 2 ^ 64 := Nat.pow_lt_pow_right (by norm_num) (by omega)
  have hd : ∃ d, NewDomain cfg (2 ^ e % 2 ^ 64) = some d := by
    rw [Nat.mod_eq_of_lt hlt]
    unfold NewDomain
    simp only [NextPowerOfTwo_exp_two_pow, Nat.not_lt.mpr hee, if_false]
    exact ⟨_, rfl⟩
  obtain ⟨d, hd⟩ := hd
  rcases sort_cases (st.vars p1) (st.vars p2) with ⟨hs1, hs2, _⟩ | ⟨hs1, hs2, _⟩
  · rw [hs1, hs2]
    obtain ⟨st2, hrun, _⟩ := Mul_withSize_spec cfg p (st.vars p2) (st.vars p1) (2 ^ e) st d
      hv2.1 hv1.1 ha2 ha1 (by omega) (by omega) hvp.1 hap hrecv hd
    rw [hrun]; rfl
  · rw [hs1, hs2]
    obtain ⟨st2, hrun, _⟩ := Mul_withSize_spec cfg p (st.vars p1) (st.vars p2) (2 ^ e) st d
      hv1.1 hv2.1 ha1 ha2 (by omega) (by omega) hvp.1 hap hrecv hd
    rw [hrun]; rfl

/-- The number `3` is a root of unity of order `2 ^ 4` in the field with 17
elements. -/
theorem isPrimitiveRoot_three_mod_17 : IsPrimitiveRoot (3 : ZMod 17) (2 ^ 4) := by
  have h := orderOf_eq_prime_pow (p := 2) (n := 3) (x := (3 : ZMod 17)) (by decide)
    (by decide)
  rw [← h]
  exact IsPrimitiveRoot.orderOf _

end SizeProofs

/-! ## Panics of Add, Sub and Mul -/

section PanicProofs

theorem andThen_isOk_false (o : Outcome F) (k : Mem F → Outcome F)
    (hk : ∀ st, (k st).isOk = false) : (o.andThen k).isOk = false := by
  cases o with
  | ok m => exact hk m
  | panic m => rfl

theorem store_none_isOk (p i : Nat) (st : Mem F) : (store p i none st).isOk = false := by
  unfold store
  split
  · rename_i h; cases h
  · rfl

theorem andThen_isOk_false_left (o : Outcome F) (k : Mem F → Outcome F)
    (ho : o.isOk = false) : (o.andThen k).isOk = false := by
  cases o with
  | ok m => cases ho
  | panic m => rfl

theorem sort_len_lt (s1 s2 : Slice) (hne : s1.len ≠ s2.len) :
    (sort s1 s2).2.len < (sort s1 s2).1.len := by
  unfold sort
  by_cases h : s2.len > s1.len
  · simp [h]
  · simp only [h, if_false]; omega

/-- A loop whose body reads `q2[i]` panics at once when it is entered with
the counter at `len(q2)` and at least one iteration to go. -/
theorem forRange_reads_past_end (p : Nat) (q1 q2 : Slice) (op : F → F → F) (cnt : Nat)
    (hcnt : 0 < cnt) (st : Mem F) :
    (forRange (fun i (st : Mem F) =>
        store p i ((st.index q1 i).bind fun a => (st.index q2 i).map fun b => op a b) st)
      q2.len cnt st).isOk = false := by
  obtain ⟨k, rfl⟩ : ∃ k, cnt = k + 1 := ⟨cnt - 1, by omega⟩
  rw [forRange]
  apply andThen_isOk_false_left
  have hv : ((st.index q1 q2.len).bind fun a => (st.index q2 q2.len).map fun b => op a b)
      = none := by
    rw [index_eq_none st q2 q2.len le_rfl]
    cases st.index q1 q2.len <;> rfl
  rw [hv]
  exact store_none_isOk p q2.len st

theorem forRange_isOk_false_at (body : Nat → Mem F → Outcome F) (j : Nat)
    (hj : ∀ st, (body j st).isOk = false) :
    ∀ (cnt i : Nat) (st : Mem F), i ≤ j → j < i + cnt →
      (forRange body i cnt st).isOk = false := by
  intro cnt
  induction cnt with
  | zero => intro i st h1 h2; omega
  | succ cnt ih =>
    intro i st h1 h2
    rw [forRange]
    rcases Nat.eq_or_lt_of_le h1 with h | h
    · subst h
      exact andThen_isOk_false_left _ _ (hj st)
    · exact andThen_isOk_false _ _ (fun st2 => ih (i + 1) st2 (by omega) (by omega))

theorem store_vars (p i : Nat) (v : Option F) (st : Mem F) :
    (store p i v st).mem.vars = st.vars := by
  unfold store
  split <;> rfl

theorem forRange_vars (body : Nat → Mem F → Outcome F)
    (hbody : ∀ i st, (body i st).mem.vars = st.vars) :
    ∀ (cnt i : Nat) (st : Mem F), (forRange body i cnt st).mem.vars = st.vars := by
  intro cnt
  induction cnt with
  | zero => intro i st; rfl
  | succ cnt ih =>
    intro i st
    rw [forRange]
    cases hb : body i st with
    | ok m =>
      have := hbody i st
      rw [hb] at this
      simp only [Outcome.andThen]
      rw [ih (i + 1) m]
      exact this
    | panic m =>
      have := hbody i st
      rw [hb] at this
      exact this

variable [CommRing F]

/-- Whenever the operands differ in length, `addSorted` reads the shorter one
past its end in its second loop, so `Add` panics. -/
theorem Add_isOk_false_of_len_ne (p p1 p2 : Nat) (st : Mem F)
    (hne : (st.vars p1).len ≠ (st.vars p2).len) : (Add p p1 p2 st).isOk = false := by
  unfold Add
  apply andThen_isOk_false
  intro st1
  unfold addSorted
  apply andThen_isOk_false
  intro st2
  apply andThen_isOk_false_left
  have hlt := sort_len_lt (st.vars p1) (st.vars p2) hne
  exact forRange_reads_past_end p _ _ (fun a b => a + b) _ (by omega) st2

/-- Whenever the operands differ in length, `subSorted` reads the shorter one
past its end in its second loop, so `Sub` panics. -/
theorem Sub_isOk_false_of_len_ne (p p1 p2 : Nat) (st : Mem F)
    (hne : (st.vars p1).len ≠ (st.vars p2).len) : (Sub p p1 p2 st).isOk = false := by
  unfold Sub
  apply andThen_isOk_false
  intro st1
  unfold subSorted
  apply andThen_isOk_false
  intro st2
  apply andThen_isOk_false_left
  have hlt := sort_len_lt (st.vars p1) (st.vars p2) hne
  exact forRange_reads_past_end p _ _ (fun a b => a - b) _ (by omega) st2

theorem SetZero_vars (p : Nat) (st : Mem F) : (SetZero p st).mem.vars = st.vars :=
  forRange_vars _ (fun i st => store_vars p i _ st) _ _ _

variable [Inv F]

/-- When the receiver is longer than the two slices handed to `mul`, the
pointwise-product loop reads `p2[len(p2)]` and panics. -/
theorem mul_isOk_false_of_longer (cfg : FFTParams F) (p : Nat) (p2 p3 : Slice) (st : Mem F)
    (hlen : p2.len < (st.vars p).len) : (mul cfg p p2 p3 st).isOk = false := by
  unfold mul
  cases hz : SetZero p st with
  | panic m => rfl
  | ok st1 =>
    have hvars : st1.vars = st.vars := by
      have := SetZero_vars p st
      rwa [hz] at this
    simp only [Outcome.andThen]
    split
    · rfl
    · apply andThen_isOk_false_left
      apply forRange_isOk_false_at _ p2.len
      · intro st2
        have hv : ((st2.index p2 p2.len).bind fun a =>
            (st2.index p3 p2.len).map fun b => a * b) = none := by
          rw [index_eq_none st2 p2 p2.len le_rfl]; rfl
        rw [hv]
        exact store_none_isOk p p2.len st2
      · exact Nat.zero_le _
      · simp only [Mem.overwrite, Mem.setArr, Nat.zero_add, hvars]
        exact hlen

theorem Mul_withSize_isOk_false (cfg : FFTParams F) (p : Nat) (q1 q2 : Slice) (m : Nat)
    (st : Mem F) (hlen : m < (st.vars p).len) :
    (Mul.withSize cfg p q1 q2 m st).isOk = false := by
  unfold Mul.withSize
  simp only
  have hres : ∀ st2 : Mem F, st2.vars = st.vars →
      resize p (st.make m m).1 ((st.make m m).2.make m m).1 st2 = .ok st2 := by
    intro st2 h2
    unfold resize
    simp [h2, Mem.make, hlen]
  rw [hres ((((st.make m m).2.make m m).2.copy (st.make m m).1 q1).copy
    ((st.make m m).2.make m m).1 q2) rfl]
  simp only [Outcome.andThen]
  exact mul_isOk_false_of_longer cfg p _ _ _ hlen

variable [DecidableEq F]

/-- `Mul` panics for every receiver that is longer than twice the power of
two chosen from the operands. -/
theorem Mul_isOk_false_of_long_receiver (cfg : FFTParams F) (p p1 p2 : Nat) (st : Mem F)
    (hlen : 2 * NextPowerOfTwo ((sort (st.vars p1) (st.vars p2)).1.len % 2 ^ 64)
      < (st.vars p).len) :
    (Mul cfg p p1 p2 st).isOk = false := by
  unfold Mul
  simp only
  split
  · split
    · exact Mul_withSize_isOk_false _ _ _ _ _ _ (by omega)
    · exact Mul_withSize_isOk_false _ _ _ _ _ _
        (lt_of_le_of_lt (Nat.mod_le _ _) hlen)
  · rfl

end PanicProofs

/-! ## The claims -/

section Claims

/-- Claim C1 (fails on the code): with `a = [1,1,1,1]`, `b` = eight ones and
a receiver `c = NewPolynomial(32)`, the call `c.Mul(&a, &b)` does not return:
the transform size is 16, the receiver keeps its 32 coefficients, and the
pointwise-product loop of `mul` panics when it reads index 16 of a padded
copy of length 16. -/
theorem Mul_panics_on_receiver_of_length_32 :
    (Mul frParams 2 0 1 (memABC 32)).isOk = false
      ∧ ((memABC 32).vars 0).len = 4 ∧ ((memABC 32).vars 1).len = 8
      ∧ ((memABC 32).vars 2).len = 32 := by
  decide

/-- Claim C2 (fails on the code): with `a = [1,1,1,1]`, `b` = eight ones and
`c = NewPolynomial(16)`, the call `c.Add(&a, &b)` does not return; it panics
in the second loop of `addSorted`, after the first four coefficients of `c`
have been set to `2`. -/
theorem Add_panics_on_lengths_4_and_8 :
    (Add 2 0 1 (memABC 16)).isOk = false
      ∧ (Add 2 0 1 (memABC 16)).mem.view ((Add 2 0 1 (memABC 16)).mem.vars 2)
          = [2, 2, 2, 2, 0, 0, 0, 0, 0, 0, 0, 0, 0, 0, 0, 0] := by
  decide

/-- Claim C3 (fails on the code): with `a = [1,1,1,1]` and `b` = eight ones,
`c.Sub(&a, &b)` and `c.Sub(&b, &a)` both panic, for the empty receiver `c`. -/
theorem Sub_panics_on_lengths_4_and_8 :
    (Sub 2 0 1 memAB).isOk = false ∧ (Sub 2 1 0 memAB).isOk = false := by
  decide

/-- Claim C4: `Add`, `Sub` and `Mul` with receiver `p` leave every other
variable `q` (in particular an operand that is not the receiver) with the
header, hence the length, and the backing array, hence the coefficients, it
had before the call; this holds for the memory in which the call ends,
whether it returns or panics.  The variable `q` owns an allocated array that
is not the array of the receiver. -/
theorem Add_Sub_Mul_leave_other_operands_unchanged [CommRing F] [Inv F] [DecidableEq F]
    (cfg : FFTParams F) (st : Mem F) (p p1 p2 q : Nat) (hq : q ≠ p)
    (hdisj : (st.vars q).arr ≠ (st.vars p).arr) (hlive : (st.vars q).arr < st.next) :
    ((Add p p1 p2 st).mem.vars q = st.vars q
        ∧ (Add p p1 p2 st).mem.heap (st.vars q).arr = st.heap (st.vars q).arr)
      ∧ ((Sub p p1 p2 st).mem.vars q = st.vars q
        ∧ (Sub p p1 p2 st).mem.heap (st.vars q).arr = st.heap (st.vars q).arr)
      ∧ ((Mul cfg p p1 p2 st).mem.vars q = st.vars q
        ∧ (Mul cfg p p1 p2 st).mem.heap (st.vars q).arr = st.heap (st.vars q).arr) :=
  ⟨⟨(Frame.Add p p1 p2 st).2.1 q hq, (Frame.Add p p1 p2 st).2.2.1 _ hlive hdisj⟩,
   ⟨(Frame.Sub p p1 p2 st).2.1 q hq, (Frame.Sub p p1 p2 st).2.2.1 _ hlive hdisj⟩,
   ⟨(Frame.Mul cfg p p1 p2 st).2.1 q hq, (Frame.Mul cfg p p1 p2 st).2.2.1 _ hlive hdisj⟩⟩

/-- Witness for C4: receiver `a` (variable 0), operands `a` and `b`; the
operand `b` (variable 1) is unchanged. -/
theorem Add_Sub_Mul_leave_other_operands_unchanged_witness :
    ((Add 0 0 1 memAB).mem.vars 1 = memAB.vars 1
        ∧ (Add 0 0 1 memAB).mem.heap (memAB.vars 1).arr = memAB.heap (memAB.vars 1).arr)
      ∧ ((Sub 0 0 1 memAB).mem.vars 1 = memAB.vars 1
        ∧ (Sub 0 0 1 memAB).mem.heap (memAB.vars 1).arr = memAB.heap (memAB.vars 1).arr)
      ∧ ((Mul frParams 0 0 1 memAB).mem.vars 1 = memAB.vars 1
        ∧ (Mul frParams 0 0 1 memAB).mem.heap (memAB.vars 1).arr
            = memAB.heap (memAB.vars 1).arr) :=
  Add_Sub_Mul_leave_other_operands_unchanged frParams memAB 0 0 1 1
    (by decide) (by decide) (by decide)

/-- Claim C5: for a polynomial of length `n ≥ 1`, `Eval` at `v` returns the
sum over `i < n` of `p[i] * v ^ i`. -/
theorem Eval_eq_sum_of_monomials [CommRing F] (st : Mem F) (p : Slice) (v : F) (hv : st.Valid p)
    (hn : 1 ≤ p.len) :
    Eval st p v = some (∑ i in Finset.range p.len, st.coeff p i * v ^ i) :=
  Eval_eq_sum st p v hv hn

/-- Witness for C5: the polynomial `[3, 0, 5, 0]` at the point `2`. -/
theorem Eval_eq_sum_of_monomials_witness :
    memPadded.Valid (memPadded.vars 0) ∧ 1 ≤ (memPadded.vars 0).len ∧
      Eval memPadded (memPadded.vars 0) 2
        = some (∑ i in Finset.range (memPadded.vars 0).len,
            memPadded.coeff (memPadded.vars 0) i * 2 ^ i) :=
  ⟨by decide, by decide,
    Eval_eq_sum_of_monomials memPadded (memPadded.vars 0) 2 (by decide) (by decide)⟩

/-- Claim C7: for valid slices of any lengths, `Equal` returns, and it returns
`true` exactly when the coefficients agree at every index, a coefficient
beyond the length counting as zero; put differently, exactly when the two
agree below the shorter length and all coefficients from the shorter length
on are zero. -/
theorem Equal_true_iff_coeffs_agree [CommRing F] [DecidableEq F] (st : Mem F) (p q : Slice) (hp : st.Valid p)
    (hq : st.Valid q) :
    ∃ b, Equal st p q = some b
      ∧ (b = true ↔ ∀ i, st.coeff p i = st.coeff q i)
      ∧ (b = true ↔ (∀ i, i < min p.len q.len → st.coeff p i = st.coeff q i)
          ∧ ∀ i, min p.len q.len ≤ i → st.coeff p i = 0 ∧ st.coeff q i = 0) := by
  obtain ⟨b, hb, hiff⟩ := Equal_spec st p q hp hq
  refine ⟨b, hb, hiff, ?_⟩
  rw [hiff]
  constructor
  · intro hall
    refine ⟨fun i _ => hall i, fun i hi => ?_⟩
    rcases Nat.le_total p.len q.len with h | h
    · have hpz : st.coeff p i = 0 := coeff_eq_zero st p i (by omega)
      exact ⟨hpz, by rw [← hall i]; exact hpz⟩
    · have hqz : st.coeff q i = 0 := coeff_eq_zero st q i (by omega)
      exact ⟨by rw [hall i]; exact hqz, hqz⟩
  · rintro ⟨hlow, hhigh⟩ i
    by_cases hi : i < min p.len q.len
    · exact hlow i hi
    · rw [(hhigh i (Nat.not_lt.mp hi)).1, (hhigh i (Nat.not_lt.mp hi)).2]

/-- Witness for C7: `[3,0,5,0]` against `[0,0,7,0,0]`. -/
theorem Equal_true_iff_coeffs_agree_witness :
    ∃ b, Equal memPadded (memPadded.vars 0) (memPadded.vars 2) = some b
      ∧ (b = true ↔ ∀ i, memPadded.coeff (memPadded.vars 0) i
            = memPadded.coeff (memPadded.vars 2) i)
      ∧ (b = true ↔
          (∀ i, i < min (memPadded.vars 0).len (memPadded.vars 2).len →
            memPadded.coeff (memPadded.vars 0) i = memPadded.coeff (memPadded.vars 2) i)
          ∧ ∀ i, min (memPadded.vars 0).len (memPadded.vars 2).len ≤ i →
            memPadded.coeff (memPadded.vars 0) i = 0
              ∧ memPadded.coeff (memPadded.vars 2) i = 0) :=
  Equal_true_iff_coeffs_agree memPadded (memPadded.vars 0) (memPadded.vars 2)
    (by decide) (by decide)

/-- Claim C8: a polynomial and the same polynomial followed by `k` zero
coefficients are `Equal`, in both directions. -/
theorem Equal_ignores_zero_padding [CommRing F] [DecidableEq F] (st : Mem F) (p q : Slice) (k : Nat) (hp : st.Valid p)
    (hq : st.Valid q) (hpad : st.view q = st.view p ++ List.replicate k 0) :
    Equal st p q = some true ∧ Equal st q p = some true := by
  have hco : ∀ i, st.coeff p i = st.coeff q i := by
    intro i
    unfold Mem.coeff
    rw [index_eq_view, index_eq_view, hpad]
    by_cases hi : i < (st.view p).length
    · rw [List.getElem?_append_left hi]
    · rw [List.getElem?_append_right (Nat.not_lt.mp hi),
        List.getElem?_eq_none (Nat.not_lt.mp hi), List.getElem?_replicate]
      split <;> rfl
  obtain ⟨b1, hb1, hiff1⟩ := Equal_spec st p q hp hq
  obtain ⟨b2, hb2, hiff2⟩ := Equal_spec st q p hq hp
  have h1 : b1 = true := hiff1.mpr hco
  have h2 : b2 = true := hiff2.mpr (fun i => (hco i).symm)
  rw [hb1, hb2, h1, h2]
  exact ⟨rfl, rfl⟩

/-- Witness for C8: the length-4 polynomial `[3,0,5,0]` and its padding with
twelve zeros to length 16. -/
theorem Equal_ignores_zero_padding_witness :
    memPadded.view (memPadded.vars 1)
        = memPadded.view (memPadded.vars 0) ++ List.replicate 12 0
      ∧ Equal memPadded (memPadded.vars 0) (memPadded.vars 1) = some true
      ∧ Equal memPadded (memPadded.vars 1) (memPadded.vars 0) = some true :=
  ⟨by decide,
    Equal_ignores_zero_padding memPadded (memPadded.vars 0) (memPadded.vars 1) 12
      (by decide) (by decide) (by decide)⟩

/-- Claim C9: `Equal` is reflexive, and symmetric in its two operands. -/
theorem Equal_refl_and_symm [CommRing F] [DecidableEq F] (st : Mem F) (p q : Slice) (hp : st.Valid p) (hq : st.Valid q) :
    Equal st p p = some true ∧ Equal st p q = Equal st q p := by
  obtain ⟨b0, hb0, hiff0⟩ := Equal_spec st p p hp hp
  obtain ⟨b1, hb1, hiff1⟩ := Equal_spec st p q hp hq
  obtain ⟨b2, hb2, hiff2⟩ := Equal_spec st q p hq hp
  have h0 : b0 = true := hiff0.mpr (fun _ => rfl)
  have h12 : b1 = b2 := by
    apply Bool.eq_iff_iff.mpr
    rw [hiff1, hiff2]
    exact ⟨fun h i => (h i).symm, fun h i => (h i).symm⟩
  rw [hb0, hb1, hb2, h0, h12]
  exact ⟨rfl, rfl⟩

/-- Witness for C9: `[3,0,5,0]` and `[0,0,7,0,0]`. -/
theorem Equal_refl_and_symm_witness :
    Equal memPadded (memPadded.vars 0) (memPadded.vars 0) = some true
      ∧ Equal memPadded (memPadded.vars 0) (memPadded.vars 2)
          = Equal memPadded (memPadded.vars 2) (memPadded.vars 0) :=
  Equal_refl_and_symm memPadded (memPadded.vars 0) (memPadded.vars 2) (by decide) (by decide)

/-- Claim C10: for a polynomial with a non-zero coefficient, `Degree` returns
the greatest index that holds a non-zero coefficient, whatever the number of
zero coefficients above it; so when the only non-zero coefficient sits at
index `k`, the result is `k`. -/
theorem Degree_eq_greatest_nonzero_index [CommRing F] [DecidableEq F] (st : Mem F) (p : Slice) (hv : st.Valid p)
    (hnz : ∃ i, st.coeff p i ≠ 0) :
    (∃ d, Degree st p = some d ∧ d < p.len ∧ st.coeff p d ≠ 0
        ∧ ∀ j, d < j → st.coeff p j = 0)
      ∧ ∀ k, st.coeff p k ≠ 0 → (∀ j, j ≠ k → st.coeff p j = 0) → Degree st p = some k := by
  obtain ⟨d, hd, hlt, hne, hab⟩ := Degree_nonzero st p hv hnz
  refine ⟨⟨d, hd, hlt, hne, hab⟩, fun k hk hothers => ?_⟩
  have hdk : d = k := by
    by_contra h
    exact hne (hothers d h)
  rw [hd, hdk]

/-- Witness for C10: `[0,0,7,0,0]` has degree 2. -/
theorem Degree_eq_greatest_nonzero_index_witness :
    (∃ i, memPadded.coeff (memPadded.vars 2) i ≠ 0)
      ∧ (∃ d, Degree memPadded (memPadded.vars 2) = some d ∧ d < (memPadded.vars 2).len
          ∧ memPadded.coeff (memPadded.vars 2) d ≠ 0
          ∧ ∀ j, d < j → memPadded.coeff (memPadded.vars 2) j = 0)
      ∧ ∀ k, memPadded.coeff (memPadded.vars 2) k ≠ 0 →
          (∀ j, j ≠ k → memPadded.coeff (memPadded.vars 2) j = 0) →
          Degree memPadded (memPadded.vars 2) = some k :=
  ⟨⟨2, by decide⟩,
    Degree_eq_greatest_nonzero_index memPadded (memPadded.vars 2) (by decide) ⟨2, by decide⟩⟩

end Claims

section FieldClaims
variable [Field F]

/-- Claim C6: for `n ≥ 1` and a point `x ≠ 1`, `Eval` of the length-`n`
polynomial whose coefficients are all one returns `(x ^ n - 1) / (x - 1)`. -/
theorem Eval_all_ones_eq_geometric (st : Mem F) (p : Slice) (n : Nat) (x : F)
    (hv : st.Valid p) (hlen : p.len = n) (hones : st.view p = List.replicate n 1)
    (hn : 1 ≤ n) (hx : x ≠ 1) :
    Eval st p x = some ((x ^ n - 1) / (x - 1)) := by
  rw [Eval_eq_sum st p x hv (by omega), hlen, ← geom_sum_eq hx n]
  congr 1
  apply Finset.sum_congr rfl
  intro i hi
  have hi2 : i < n := Finset.mem_range.mp hi
  have hc : st.coeff p i = 1 := by
    unfold Mem.coeff
    rw [index_eq_view, hones, List.getElem?_replicate]
    simp [hi2]
  rw [hc, one_mul]

/-- Witness for C6: the length-20 all-ones polynomial at the point `2` of the
field with 17 elements. -/
theorem Eval_all_ones_eq_geometric_witness :
    (2 : ZMod 17) ≠ 1
      ∧ Eval memOnes (memOnes.vars 0) 2 = some (((2 : ZMod 17) ^ 20 - 1) / (2 - 1)) :=
  ⟨by decide,
    Eval_all_ones_eq_geometric memOnes (memOnes.vars 0) 20 2 (by decide) (by decide)
      (by decide) (by decide) (by decide)⟩

end FieldClaims

/-! ## The claims on Degree of zero, totality, Neg, Copy and SetZero -/

section MoreClaims

/-- Counterexample for C11: for the zero polynomial of length 4 and for the
empty polynomial, `Degree` returns `2 ^ 64 - 1`, the `uint64` conversion of
`-1`. -/
theorem Degree_zero_polynomial_wraps :
    (∀ i, memZero.coeff (memZero.vars 0) i = 0)
      ∧ Degree memZero (memZero.vars 0) = some 18446744073709551615
      ∧ (memZero.vars 1).len = 0
      ∧ Degree memZero (memZero.vars 1) = some 18446744073709551615 := by
  refine ⟨fun i => ?_, by decide, by decide, by decide⟩
  by_cases hi : i < 4
  · interval_cases i <;> decide
  · exact coeff_eq_zero memZero (memZero.vars 0) i (by
      have : (memZero.vars 0).len = 4 := by decide
      omega)

/-- Claim C11, amended: for every polynomial all of whose coefficients are
zero (any length, the empty one included), `Degree` returns `2 ^ 64 - 1`, the
`uint64` conversion of `-1`; this value is not an index of the
polynomial. -/
theorem Degree_zero_returns_max_uint64 [CommRing F] [DecidableEq F] (st : Mem F) (p : Slice)
    (hv : st.Valid p) (hz : ∀ i, st.coeff p i = 0) :
    Degree st p = some (2 ^ 64 - 1) ∧ ∀ i, i < p.len → i ≠ 2 ^ 64 - 1 := by
  refine ⟨Degree_zero st p hv hz, fun i hi => ?_⟩
  have h63 : p.len < 2 ^ 63 := lt_of_le_of_lt hv.1 hv.2
  omega

/-- Witness for C11: the zero polynomial `[0, 0, 0]`. -/
theorem Degree_zero_returns_max_uint64_witness :
    Degree memZero (memZero.vars 2) = some (2 ^ 64 - 1)
      ∧ ∀ i, i < (memZero.vars 2).len → i ≠ 2 ^ 64 - 1 :=
  Degree_zero_returns_max_uint64 memZero (memZero.vars 2) (by decide) (fun i => by
    by_cases hi : i < 3
    · interval_cases i <;> decide
    · exact coeff_eq_zero memZero (memZero.vars 2) i (by
        have : (memZero.vars 2).len = 3 := by decide
        omega))

/-- Counterexample for C12: `Eval` on the empty polynomial `c` panics (it
reads index `-1`); with `a = [1,1,1,1]` and `b` = eight ones, `c.Add(&a, &b)`
and `c.Sub(&a, &b)` panic, and so does `c.Mul(&a, &b)` for
`c = NewPolynomial(32)`. -/
theorem operations_panic_on_some_lengths :
    (memAB.vars 2).len = 0 ∧ Eval memAB (memAB.vars 2) 2 = none
      ∧ (Add 2 0 1 memAB).isOk = false ∧ (Sub 2 0 1 memAB).isOk = false
      ∧ (Mul frParams 2 0 1 (memABC 32)).isOk = false := by
  decide

/-- Claim C12, amended: for valid, allocated polynomials of any lengths (zero
included), the receiver being an operand itself or living in an array of its
own, `Copy`, `Degree`, `Equal`, `Neg` and `SetZero` complete; `Eval`
completes when the length is at least 1; `Add` and `Sub` complete when the
operands have equal length; `Mul` completes when the receiver is no longer
than the chosen transform size and the field supports the size `2 * n`. -/
theorem operations_complete_within_design [Field F] [DecidableEq F] (cfg : FFTParams F)
    (st : Mem F) (p p1 p2 : Nat) (v : F)
    (hvp : st.Valid (st.vars p)) (hv1 : st.Valid (st.vars p1)) (hv2 : st.Valid (st.vars p2))
    (hap : (st.vars p).arr < st.next) (ha1 : (st.vars p1).arr < st.next)
    (ha2 : (st.vars p2).arr < st.next)
    (hal1 : p1 = p ∨ (st.vars p1).arr ≠ (st.vars p).arr)
    (hal2 : p2 = p ∨ (st.vars p2).arr ≠ (st.vars p).arr) :
    (1 ≤ (st.vars p).len → (Eval st (st.vars p) v).isSome = true)
      ∧ (Copy st (st.vars p)).1.len = (st.vars p).len
      ∧ (Degree st (st.vars p)).isSome = true
      ∧ (Equal st (st.vars p) (st.vars p1)).isSome = true
      ∧ (Neg p p1 st).isOk = true
      ∧ (SetZero p st).isOk = true
      ∧ ((st.vars p1).len = (st.vars p2).len →
          (Add p p1 p2 st).isOk = true ∧ (Sub p p1 p2 st).isOk = true)
      ∧ (cfg.maxOrderRoot < 64 →
          2 * NextPowerOfTwo (max (st.vars p1).len (st.vars p2).len) ≤ 2 ^ cfg.maxOrderRoot →
          ∀ m, Mul.size st p1 p2 = some m → (st.vars p).len ≤ m →
            (Mul cfg p p1 p2 st).isOk = true) := by
  refine ⟨fun hn => ?_, rfl, ?_, ?_, ?_, ?_, fun hlen => ⟨?_, ?_⟩, ?_⟩
  · rw [Eval_eq_sum st _ v hvp hn]; rfl
  · obtain ⟨d, hd⟩ := Degree_returns st _ hvp
    rw [hd]; rfl
  · obtain ⟨b, hb, _⟩ := Equal_spec st _ _ hvp hv1
    rw [hb]; rfl
  · obtain ⟨st2, hrun, _⟩ := Neg_spec p p1 st hvp hv1 ha1 hal1
    rw [hrun]; rfl
  · obtain ⟨st2, hrun, _⟩ := SetZero_spec p st hvp.1
    rw [hrun]; rfl
  · obtain ⟨st2, hrun, _⟩ := Add_equal_len_spec p p1 p2 st hvp hv1 hv2 ha1 ha2 hal1 hal2 hlen
    rw [hrun]; rfl
  · obtain ⟨st2, hrun, _⟩ := Sub_equal_len_spec p p1 p2 st hvp hv1 hv2 ha1 ha2 hal1 hal2 hlen
    rw [hrun]; rfl
  · intro hmax hsize m hm hrecv
    exact Mul_isOk cfg st p p1 p2 hv1 hv2 hvp ha1 ha2 hap hmax hsize m hm hrecv

/-- Witness for C12: over the field with 17 elements, empty receiver `c`
(variable 2), operands `[1, 2]` and `[3, 4]`. -/
theorem operations_complete_within_design_witness :
    (1 ≤ (mem17.vars 2).len → (Eval mem17 (mem17.vars 2) 5).isSome = true)
      ∧ (Copy mem17 (mem17.vars 2)).1.len = (mem17.vars 2).len
      ∧ (Degree mem17 (mem17.vars 2)).isSome = true
      ∧ (Equal mem17 (mem17.vars 2) (mem17.vars 0)).isSome = true
      ∧ (Neg 2 0 mem17).isOk = true
      ∧ (SetZero 2 mem17).isOk = true
      ∧ ((mem17.vars 0).len = (mem17.vars 1).len →
          (Add 2 0 1 mem17).isOk = true ∧ (Sub 2 0 1 mem17).isOk = true)
      ∧ (params17.maxOrderRoot < 64 →
          2 * NextPowerOfTwo (max (mem17.vars 0).len (mem17.vars 1).len)
            ≤ 2 ^ params17.maxOrderRoot →
          ∀ m, Mul.size mem17 0 1 = some m → (mem17.vars 2).len ≤ m →
            (Mul params17 2 0 1 mem17).isOk = true) :=
  operations_complete_within_design params17 mem17 2 0 1 5 (by decide) (by decide)
    (by decide) (by decide) (by decide) (by decide) (by decide) (by decide)

/-- Claim C13: for a receiver `p` that is `p1` itself or lives in another
array (shorter or longer than `p1`), `p.Neg(p1)` returns, the receiver has
exactly the length of `p1`, its coefficient at every index is the negation
of the coefficient `p1` held before the call, and hence, for a non-empty
`p1`, `Eval` of the receiver at any point is the negation of `Eval` of the
old `p1`. -/
theorem Neg_sets_receiver_to_negation [CommRing F] (p p1 : Nat) (st : Mem F)
    (hvp : st.Valid (st.vars p)) (hv1 : st.Valid (st.vars p1))
    (ha1 : (st.vars p1).arr < st.next)
    (hal : p1 = p ∨ (st.vars p1).arr ≠ (st.vars p).arr) :
    ∃ st2, Neg p p1 st = .ok st2 ∧ (st2.vars p).len = (st.vars p1).len
      ∧ (∀ i, st2.coeff (st2.vars p) i = -st.coeff (st.vars p1) i)
      ∧ (1 ≤ (st.vars p1).len → ∀ r, ∃ e, Eval st (st.vars p1) r = some e
          ∧ Eval st2 (st2.vars p) r = some (-e)) := by
  obtain ⟨st2, hrun, hlen, _, hco, hcap⟩ := Neg_spec p p1 st hvp hv1 ha1 hal
  refine ⟨st2, hrun, hlen, hco, fun hn r => ⟨_, Eval_eq_sum st _ r hv1 hn, ?_⟩⟩
  rw [Eval_eq_sum_of_cap st2 _ r hcap (by omega), hlen, ← Finset.sum_neg_distrib]
  congr 1
  apply Finset.sum_congr rfl
  intro i _
  rw [hco i, neg_mul]

/-- Witness for C13: the receiver `[9,9,9,9,9,9]` (variable 2) is longer than
the operand `[1,2,3,4]` (variable 0). -/
theorem Neg_sets_receiver_to_negation_witness :
    ∃ st2, Neg 2 0 memEqual = .ok st2 ∧ (st2.vars 2).len = (memEqual.vars 0).len
      ∧ (∀ i, st2.coeff (st2.vars 2) i = -memEqual.coeff (memEqual.vars 0) i)
      ∧ (1 ≤ (memEqual.vars 0).len → ∀ r, ∃ e, Eval memEqual (memEqual.vars 0) r = some e
          ∧ Eval st2 (st2.vars 2) r = some (-e)) :=
  Neg_sets_receiver_to_negation 2 0 memEqual (by decide) (by decide) (by decide)
    (Or.inr (by decide))

/-- What `Copy` itself guarantees: after `c := x.Copy()` the copy has the
length and the coefficients of `x`, in an array other than that of `x`, so
`c.Equal(x)` is true, and `x` itself is as before.
`SetZero`, `Add`, `Sub` and `Mul` with the copy as receiver leave the header
and the array of `x` unchanged, and the same calls with `x` as receiver leave
the header and the array of the copy unchanged.  `Neg` is not in the list:
it does not keep the two apart. -/
theorem Copy_independent_under_SetZero_Add_Sub_Mul [CommRing F] [Inv F] [DecidableEq F]
    (cfg : FFTParams F) (st : Mem F) (c x a b : Nat) (hvx : st.Valid (st.vars x))
    (hax : (st.vars x).arr < st.next) (hcx : c ≠ x) :
    ((CopyTo c x st).vars c).len = (st.vars x).len
      ∧ ((CopyTo c x st).vars c).arr ≠ (st.vars x).arr
      ∧ (∀ i, (CopyTo c x st).coeff ((CopyTo c x st).vars c) i = st.coeff (st.vars x) i)
      ∧ Equal (CopyTo c x st) ((CopyTo c x st).vars c) ((CopyTo c x st).vars x) = some true
      ∧ ((CopyTo c x st).vars x = st.vars x
          ∧ (CopyTo c x st).heap (st.vars x).arr = st.heap (st.vars x).arr)
      ∧ (∀ o ∈ [SetZero c (CopyTo c x st), Add c a b (CopyTo c x st),
            Sub c a b (CopyTo c x st), Mul cfg c a b (CopyTo c x st)],
          o.mem.vars x = st.vars x ∧ o.mem.heap (st.vars x).arr = st.heap (st.vars x).arr)
      ∧ (∀ o ∈ [SetZero x (CopyTo c x st), Add x a b (CopyTo c x st),
            Sub x a b (CopyTo c x st), Mul cfg x a b (CopyTo c x st)],
          o.mem.vars c = (CopyTo c x st).vars c
            ∧ o.mem.heap ((CopyTo c x st).vars c).arr
                = (CopyTo c x st).heap ((CopyTo c x st).vars c).arr) := by
  obtain ⟨hc, hx, hnext, hheap, hother⟩ := CopyTo_spec c x st hvx.1 hax hcx
  have hne : (st.vars x).arr ≠ st.next := by omega
  have hxheap : (CopyTo c x st).heap (st.vars x).arr = st.heap (st.vars x).arr :=
    hother _ hne
  have hl : (st.view (st.vars x)).length = (st.vars x).len := view_length st _ hvx
  have hco : ∀ i, (CopyTo c x st).coeff ((CopyTo c x st).vars c) i = st.coeff (st.vars x) i := by
    intro i
    unfold Mem.coeff
    rw [index_eq_view, index_eq_view, hc]
    show ((List.take (st.vars x).len ((CopyTo c x st).heap st.next))[i]?).getD 0 = _
    rw [hheap, ← hl, List.take_length]
  have hcox : ∀ i, (CopyTo c x st).coeff ((CopyTo c x st).vars x) i
      = st.coeff (st.vars x) i := by
    intro i
    unfold Mem.coeff Mem.index
    rw [hx, hxheap]
  have hvc : (CopyTo c x st).Valid ((CopyTo c x st).vars c) := by
    unfold Mem.Valid
    rw [hc]
    show (st.vars x).len ≤ ((CopyTo c x st).heap st.next).length
      ∧ ((CopyTo c x st).heap st.next).length < 2 ^ 63
    rw [hheap, hl]
    exact ⟨le_rfl, lt_of_le_of_lt hvx.1 hvx.2⟩
  have hvx2 : (CopyTo c x st).Valid ((CopyTo c x st).vars x) := by
    unfold Mem.Valid
    rw [hx, hxheap]
    exact hvx
  refine ⟨by rw [hc], by rw [hc]; exact Ne.symm hne, hco, ?_, ⟨hx, hxheap⟩, ?_, ?_⟩
  · obtain ⟨e, he, hiff⟩ := Equal_spec (CopyTo c x st) _ _ hvc hvx2
    rw [he, hiff.mpr (fun i => by rw [hco i, hcox i])]
  · have hfr : ∀ o : Outcome F, Frame c (CopyTo c x st) o.mem →
        o.mem.vars x = st.vars x ∧ o.mem.heap (st.vars x).arr = st.heap (st.vars x).arr := by
      intro o h
      refine ⟨by rw [h.2.1 x (Ne.symm hcx), hx], ?_⟩
      rw [h.2.2.1 (st.vars x).arr (by rw [hnext]; omega) (by rw [hc]; exact hne), hxheap]
    intro o ho
    simp only [List.mem_cons, List.mem_singleton, List.not_mem_nil, or_false] at ho
    rcases ho with rfl | rfl | rfl | rfl
    · exact hfr _ (Frame.refl c (CopyTo c x st)).SetZero
    · exact hfr _ (Frame.Add c a b _)
    · exact hfr _ (Frame.Sub c a b _)
    · exact hfr _ (Frame.Mul cfg c a b _)
  · have hfr : ∀ o : Outcome F, Frame x (CopyTo c x st) o.mem →
        o.mem.vars c = (CopyTo c x st).vars c
          ∧ o.mem.heap ((CopyTo c x st).vars c).arr
              = (CopyTo c x st).heap ((CopyTo c x st).vars c).arr := by
      intro o h
      refine ⟨h.2.1 c hcx, ?_⟩
      rw [hc]
      exact h.2.2.1 st.next (by rw [hnext]; omega) (by rw [hx]; exact Ne.symm hne)
    intro o ho
    simp only [List.mem_cons, List.mem_singleton, List.not_mem_nil, or_false] at ho
    rcases ho with rfl | rfl | rfl | rfl
    · exact hfr _ (Frame.refl x (CopyTo c x st)).SetZero
    · exact hfr _ (Frame.Add x a b _)
    · exact hfr _ (Frame.Sub x a b _)
    · exact hfr _ (Frame.Mul cfg x a b _)

/-- The previous theorem at `ac := a.Copy()` for `a = [1,1,1,1]`, the copy
going to a new variable 3; the other operand of the later calls is `b`. -/
theorem Copy_independent_under_SetZero_Add_Sub_Mul_witness :
    ((CopyTo 3 0 memAB).vars 3).len = (memAB.vars 0).len
      ∧ ((CopyTo 3 0 memAB).vars 3).arr ≠ (memAB.vars 0).arr
      ∧ (∀ i, (CopyTo 3 0 memAB).coeff ((CopyTo 3 0 memAB).vars 3) i
          = memAB.coeff (memAB.vars 0) i)
      ∧ Equal (CopyTo 3 0 memAB) ((CopyTo 3 0 memAB).vars 3) ((CopyTo 3 0 memAB).vars 0)
          = some true
      ∧ ((CopyTo 3 0 memAB).vars 0 = memAB.vars 0
          ∧ (CopyTo 3 0 memAB).heap (memAB.vars 0).arr = memAB.heap (memAB.vars 0).arr)
      ∧ (∀ o ∈ [SetZero 3 (CopyTo 3 0 memAB), Add 3 0 1 (CopyTo 3 0 memAB),
            Sub 3 0 1 (CopyTo 3 0 memAB), Mul frParams 3 0 1 (CopyTo 3 0 memAB)],
          o.mem.vars 0 = memAB.vars 0
            ∧ o.mem.heap (memAB.vars 0).arr = memAB.heap (memAB.vars 0).arr)
      ∧ (∀ o ∈ [SetZero 0 (CopyTo 3 0 memAB), Add 0 0 1 (CopyTo 3 0 memAB),
            Sub 0 0 1 (CopyTo 3 0 memAB), Mul frParams 0 0 1 (CopyTo 3 0 memAB)],
          o.mem.vars 3 = (CopyTo 3 0 memAB).vars 3
            ∧ o.mem.heap ((CopyTo 3 0 memAB).vars 3).arr
                = (CopyTo 3 0 memAB).heap ((CopyTo 3 0 memAB).vars 3).arr) :=
  Copy_independent_under_SetZero_Add_Sub_Mul frParams memAB 3 0 0 1 (by decide) (by decide)
    (by decide)

/-- Claim C14 (fails on the code): with `a = [1,1,1,1]` and `ac := a.Copy()`,
the copy lives in an array of its own and holds `[1,1,1,1]`.  Using the copy
as a receiver, `ac.Neg(&a)` returns and `a` then holds `[-1,-1,-1,-1]`: the
source of the copy has changed.  The other way round, `a.Neg(&ac)` returns
and the array of the copy then holds `[-1,-1,-1,-1]`. -/
theorem Neg_with_copy_as_receiver_negates_source :
    ((CopyTo 3 0 memAB).vars 3).arr ≠ ((CopyTo 3 0 memAB).vars 0).arr
      ∧ (CopyTo 3 0 memAB).view ((CopyTo 3 0 memAB).vars 3) = [1, 1, 1, 1]
      ∧ (CopyTo 3 0 memAB).view ((CopyTo 3 0 memAB).vars 0) = [1, 1, 1, 1]
      ∧ (Neg 3 0 (CopyTo 3 0 memAB)).isOk = true
      ∧ (Neg 3 0 (CopyTo 3 0 memAB)).mem.vars 0 = (CopyTo 3 0 memAB).vars 0
      ∧ (Neg 3 0 (CopyTo 3 0 memAB)).mem.view ((Neg 3 0 (CopyTo 3 0 memAB)).mem.vars 0)
          = [-1, -1, -1, -1]
      ∧ (Neg 0 3 (CopyTo 3 0 memAB)).isOk = true
      ∧ (Neg 0 3 (CopyTo 3 0 memAB)).mem.vars 3 = (CopyTo 3 0 memAB).vars 3
      ∧ (Neg 0 3 (CopyTo 3 0 memAB)).mem.view ((Neg 0 3 (CopyTo 3 0 memAB)).mem.vars 3)
          = [-1, -1, -1, -1]
      ∧ (-1 : Fr) ≠ 1 := by
  decide

/-- Claim C15: `SetZero` returns, leaves the header of the receiver, hence
its length, unchanged, and every coefficient of the receiver is zero
afterwards. -/
theorem SetZero_zeroes_every_coefficient [CommRing F] (p : Nat) (st : Mem F)
    (hv : st.Valid (st.vars p)) :
    ∃ st2, SetZero p st = .ok st2 ∧ st2.vars p = st.vars p
      ∧ (∀ i, i < (st.vars p).len → st2.index (st2.vars p) i = some 0)
      ∧ ∀ i, st2.coeff (st2.vars p) i = 0 := by
  obtain ⟨st2, hrun, hvars, _, _, _, hview⟩ := SetZero_spec p st hv.1
  have hidx : ∀ i, st2.index (st2.vars p) i
      = if i < (st.vars p).len then some 0 else none := by
    intro i
    rw [hvars, index_eq_view, hview, List.getElem?_replicate]
  refine ⟨st2, hrun, by rw [hvars], fun i hi => by rw [hidx i, if_pos hi], fun i => ?_⟩
  unfold Mem.coeff
  rw [hidx i]
  split <;> rfl

/-- Witness for C15: the polynomial `[1,2,3,4]`. -/
theorem SetZero_zeroes_every_coefficient_witness :
    ∃ st2, SetZero 0 memEqual = .ok st2 ∧ st2.vars 0 = memEqual.vars 0
      ∧ (∀ i, i < (memEqual.vars 0).len → st2.index (st2.vars 0) i = some 0)
      ∧ ∀ i, st2.coeff (st2.vars 0) i = 0 :=
  SetZero_zeroes_every_coefficient 0 memEqual (by decide)

end MoreClaims

/-! ## The claims on the transform size, Mul, stale coefficients, resize and
the operand of Neg -/

section LastClaims

/-- The size that `Mul` selects: for operands that each have a non-zero
coefficient (and whose lengths are at most `2 ^ 62`), let `n = 2 ^ k` be the
smallest power of two that is at least the longer length and `d1`, `d2` the
true degrees, which is what `Degree` returns.  Then `d1 + d2` does not
overflow a `uint64`, the padded copies get the size `m = n` when
`d1 + d2 < n` and `m = 2 * n` otherwise, and in both cases `d1 + d2 < m`.
This is about the selection only; the size of the `Domain` is the length of
the receiver, which `mul` reads after the resize. -/
theorem Mul_selected_size_exceeds_degree_sum [CommRing F] [Inv F] [DecidableEq F] (st : Mem F)
    (p1 p2 : Nat) (hv1 : st.Valid (st.vars p1)) (hv2 : st.Valid (st.vars p2))
    (hlen : max (st.vars p1).len (st.vars p2).len ≤ 2 ^ 62)
    (hnz1 : ∃ i, st.coeff (st.vars p1) i ≠ 0) (hnz2 : ∃ i, st.coeff (st.vars p2) i ≠ 0) :
    ∃ d1 d2 m k,
      (NextPowerOfTwo (max (st.vars p1).len (st.vars p2).len) = 2 ^ k
        ∧ max (st.vars p1).len (st.vars p2).len ≤ 2 ^ k
        ∧ ∀ j, max (st.vars p1).len (st.vars p2).len ≤ 2 ^ j → 2 ^ k ≤ 2 ^ j)
      ∧ (Degree st (st.vars p1) = some d1 ∧ st.coeff (st.vars p1) d1 ≠ 0
        ∧ ∀ j, d1 < j → st.coeff (st.vars p1) j = 0)
      ∧ (Degree st (st.vars p2) = some d2 ∧ st.coeff (st.vars p2) d2 ≠ 0
        ∧ ∀ j, d2 < j → st.coeff (st.vars p2) j = 0)
      ∧ d1 + d2 < 2 ^ 64
      ∧ Mul.size st p1 p2 = some m
      ∧ m = (if d1 + d2 < 2 ^ k then 2 ^ k else 2 * 2 ^ k)
      ∧ (∀ (cfg : FFTParams F) (p : Nat), Mul cfg p p1 p2 st
          = Mul.withSize cfg p (sort (st.vars p1) (st.vars p2)).1
              (sort (st.vars p1) (st.vars p2)).2 m st)
      ∧ d1 + d2 < m := by
  obtain ⟨d1, hd1, hd1lt, hd1ne, hd1ab⟩ := Degree_nonzero st _ hv1 hnz1
  obtain ⟨d2, hd2, hd2lt, hd2ne, hd2ab⟩ := Degree_nonzero st _ hv2 hnz2
  have hnle : NextPowerOfTwo (max (st.vars p1).len (st.vars p2).len) ≤ 2 ^ 62 :=
    NextPowerOfTwo_le_of_le_two_pow _ 62 hlen
  have hle := le_NextPowerOfTwo (max (st.vars p1).len (st.vars p2).len)
  obtain ⟨da, db, hda, hdb, hsz⟩ := Mul_size_spec st p1 p2 hv1 hv2 (by omega)
  rw [hd1] at hda
  rw [hd2] at hdb
  have e1 : d1 = da := Option.some.inj hda
  have e2 : d2 = db := Option.some.inj hdb
  subst e1 e2
  have hl1 : (st.vars p1).len ≤ max (st.vars p1).len (st.vars p2).len := le_max_left _ _
  have hl2 : (st.vars p2).len ≤ max (st.vars p1).len (st.vars p2).len := le_max_right _ _
  have hsum : (d1 + d2) % 2 ^ 64 = d1 + d2 := Nat.mod_eq_of_lt (by omega)
  rw [hsum] at hsz
  refine ⟨d1, d2, _, NextPowerOfTwo.exp (max (st.vars p1).len (st.vars p2).len)
      (max (st.vars p1).len (st.vars p2).len) 0,
    ⟨rfl, hle, fun j hj => NextPowerOfTwo_le_of_le_two_pow _ j hj⟩,
    ⟨hd1, hd1ne, hd1ab⟩, ⟨hd2, hd2ne, hd2ab⟩, by omega, hsz, rfl,
    fun cfg p => Mul_eq_withSize cfg p p1 p2 _ st hsz, ?_⟩
  show d1 + d2 < if d1 + d2 < NextPowerOfTwo (max (st.vars p1).len (st.vars p2).len)
    then NextPowerOfTwo (max (st.vars p1).len (st.vars p2).len)
    else 2 * NextPowerOfTwo (max (st.vars p1).len (st.vars p2).len)
  split <;> omega

/-- The previous theorem at `a = [1,1,1,1]` and `b` = eight ones: the
degrees are 3 and 7, `n = 8`, and the selected size is 16. -/
theorem Mul_selected_size_exceeds_degree_sum_witness :
    ∃ d1 d2 m k,
      (NextPowerOfTwo (max (memAB.vars 0).len (memAB.vars 1).len) = 2 ^ k
        ∧ max (memAB.vars 0).len (memAB.vars 1).len ≤ 2 ^ k
        ∧ ∀ j, max (memAB.vars 0).len (memAB.vars 1).len ≤ 2 ^ j → 2 ^ k ≤ 2 ^ j)
      ∧ (Degree memAB (memAB.vars 0) = some d1 ∧ memAB.coeff (memAB.vars 0) d1 ≠ 0
        ∧ ∀ j, d1 < j → memAB.coeff (memAB.vars 0) j = 0)
      ∧ (Degree memAB (memAB.vars 1) = some d2 ∧ memAB.coeff (memAB.vars 1) d2 ≠ 0
        ∧ ∀ j, d2 < j → memAB.coeff (memAB.vars 1) j = 0)
      ∧ d1 + d2 < 2 ^ 64
      ∧ Mul.size memAB 0 1 = some m
      ∧ m = (if d1 + d2 < 2 ^ k then 2 ^ k else 2 * 2 ^ k)
      ∧ (∀ (cfg : FFTParams Fr) (p : Nat), Mul cfg p 0 1 memAB
          = Mul.withSize cfg p (sort (memAB.vars 0) (memAB.vars 1)).1
              (sort (memAB.vars 0) (memAB.vars 1)).2 m memAB)
      ∧ d1 + d2 < m :=
  Mul_selected_size_exceeds_degree_sum memAB 0 1 (by decide) (by decide) (by decide)
    ⟨0, by decide⟩ ⟨0, by decide⟩

/-- Claim C16 (fails on the code): with `a = [1,1,1,1]`, `b` = eight ones,
both with non-zero coefficients, and the receiver `c = NewPolynomial(32)`,
the degrees are 3 and 7, `n = 8`, and the selected size is `m = 16 > 10`, the
size of the two padded copies (the two arrays allocated by the call).  Yet
`c.Mul(&a, &b)` does not multiply at size 16: the receiver keeps its length
32 through the resize, `mul` builds its `Domain` for `len(*p1) = 32`, and the
call panics. -/
theorem Mul_transforms_at_receiver_length_not_selected_size :
    (memABC 32).coeff ((memABC 32).vars 0) 3 ≠ 0
      ∧ (memABC 32).coeff ((memABC 32).vars 1) 7 ≠ 0
      ∧ NextPowerOfTwo (max ((memABC 32).vars 0).len ((memABC 32).vars 1).len) = 8
      ∧ Degree (memABC 32) ((memABC 32).vars 0) = some 3
      ∧ Degree (memABC 32) ((memABC 32).vars 1) = some 7
      ∧ Mul.size (memABC 32) 0 1 = some 16
      ∧ ((memABC 32).vars 2).len = 32
      ∧ (Mul frParams 2 0 1 (memABC 32)).isOk = false
      ∧ ((Mul frParams 2 0 1 (memABC 32)).mem.vars 2).len = 32
      ∧ ((Mul frParams 2 0 1 (memABC 32)).mem.heap (memABC 32).next).length = 16
      ∧ ((Mul frParams 2 0 1 (memABC 32)).mem.heap ((memABC 32).next + 1)).length = 16
      ∧ (NewDomain frParams (((Mul frParams 2 0 1 (memABC 32)).mem.vars 2).len % 2 ^ 64)).map
          Domain.Cardinality = some 32 := by
  decide

/-- Claim C17: for valid, allocated operands of any content (all-zero and
empty ones included) whose size `2 * n` the field supports, and a receiver
whose length does not exceed the transform size `m` chosen by `Mul`, the
call returns, the receiver has length exactly `m`, and its coefficient at
every index `k < m` is the sum over `i + j = k` of `p1[i] * p2[j]`; the
transform pair is the evaluation at the powers of a primitive root of unity
and its inverse. -/
theorem Mul_sets_receiver_to_product [Field F] [DecidableEq F] (cfg : FFTParams F)
    (st : Mem F) (p p1 p2 : Nat)
    (hv1 : st.Valid (st.vars p1)) (hv2 : st.Valid (st.vars p2)) (hvp : st.Valid (st.vars p))
    (ha1 : (st.vars p1).arr < st.next) (ha2 : (st.vars p2).arr < st.next)
    (hap : (st.vars p).arr < st.next)
    (hroot : IsPrimitiveRoot cfg.rootOfUnity (2 ^ cfg.maxOrderRoot)) (htwo : (2 : F) ≠ 0)
    (hmax : cfg.maxOrderRoot < 64)
    (hsize : 2 * NextPowerOfTwo (max (st.vars p1).len (st.vars p2).len)
      ≤ 2 ^ cfg.maxOrderRoot)
    (m : Nat) (hm : Mul.size st p1 p2 = some m) (hrecv : (st.vars p).len ≤ m) :
    ∃ st2, Mul cfg p p1 p2 st = .ok st2 ∧ (st2.vars p).len = m ∧
      ∀ k, k < m → st2.coeff (st2.vars p) k
        = ∑ ij in Finset.antidiagonal k,
            st.coeff (st.vars p1) ij.1 * st.coeff (st.vars p2) ij.2 := by
  obtain ⟨st2, hrun, hlen, hco⟩ := Mul_product cfg st p p1 p2 hv1 hv2 hvp ha1 ha2 hap hroot
    htwo hmax hsize m hm hrecv
  exact ⟨st2, hrun, hlen, fun k _ => hco k⟩

/-- Witness for C17: over the field with 17 elements, `[1, 2] * [3, 4]` into
the empty receiver, at transform size 4. -/
theorem Mul_sets_receiver_to_product_witness :
    Mul.size mem17 0 1 = some 4 ∧
    ∃ st2, Mul params17 2 0 1 mem17 = .ok st2 ∧ (st2.vars 2).len = 4 ∧
      ∀ k, k < 4 → st2.coeff (st2.vars 2) k
        = ∑ ij in Finset.antidiagonal k,
            mem17.coeff (mem17.vars 0) ij.1 * mem17.coeff (mem17.vars 1) ij.2 :=
  ⟨by decide,
    Mul_sets_receiver_to_product params17 mem17 2 0 1 (by decide) (by decide) (by decide)
      (by decide) (by decide) (by decide) isPrimitiveRoot_three_mod_17 (by decide)
      (by decide) (by decide) 4 (by decide) (by decide)⟩

/-- Claim C18: for operands of one length `L` and a receiver of length `R`
that is an operand itself or lives in an array of its own, `Add` returns,
the receiver has length `max(R, L)`, its coefficient at each `i < L` is
`p1[i] + p2[i]`, and its coefficient at each `i` with `L ≤ i < R` is zero; the
same holds for `Sub` with `p1[i] - p2[i]`. -/
theorem Add_Sub_clear_stale_coefficients [CommRing F] (p p1 p2 : Nat) (st : Mem F)
    (hvp : st.Valid (st.vars p)) (hv1 : st.Valid (st.vars p1)) (hv2 : st.Valid (st.vars p2))
    (ha1 : (st.vars p1).arr < st.next) (ha2 : (st.vars p2).arr < st.next)
    (hal1 : p1 = p ∨ (st.vars p1).arr ≠ (st.vars p).arr)
    (hal2 : p2 = p ∨ (st.vars p2).arr ≠ (st.vars p).arr)
    (hlen : (st.vars p1).len = (st.vars p2).len) :
    (∃ st2, Add p p1 p2 st = .ok st2
        ∧ (st2.vars p).len = max (st.vars p).len (st.vars p1).len
        ∧ (∀ i, i < (st.vars p1).len → st2.coeff (st2.vars p) i
            = st.coeff (st.vars p1) i + st.coeff (st.vars p2) i)
        ∧ ∀ i, (st.vars p1).len ≤ i → i < (st.vars p).len → st2.coeff (st2.vars p) i = 0)
      ∧ (∃ st2, Sub p p1 p2 st = .ok st2
        ∧ (st2.vars p).len = max (st.vars p).len (st.vars p1).len
        ∧ (∀ i, i < (st.vars p1).len → st2.coeff (st2.vars p) i
            = st.coeff (st.vars p1) i - st.coeff (st.vars p2) i)
        ∧ ∀ i, (st.vars p1).len ≤ i → i < (st.vars p).len →
            st2.coeff (st2.vars p) i = 0) := by
  constructor
  · obtain ⟨st2, hrun, hl, _, hco⟩ :=
      Add_equal_len_spec p p1 p2 st hvp hv1 hv2 ha1 ha2 hal1 hal2 hlen
    refine ⟨st2, hrun, hl, fun i _ => hco i, fun i hi _ => ?_⟩
    rw [hco i, coeff_eq_zero st _ i hi, coeff_eq_zero st _ i (by omega), add_zero]
  · obtain ⟨st2, hrun, hl, _, hco⟩ :=
      Sub_equal_len_spec p p1 p2 st hvp hv1 hv2 ha1 ha2 hal1 hal2 hlen
    refine ⟨st2, hrun, hl, fun i _ => hco i, fun i hi _ => ?_⟩
    rw [hco i, coeff_eq_zero st _ i hi, coeff_eq_zero st _ i (by omega), sub_zero]

/-- Witness for C18: the receiver `[9,9,9,9,9,9]` holds stale values at the
indices 4 and 5; the operands are `[1,2,3,4]` and `[5,6,7,8]`. -/
theorem Add_Sub_clear_stale_coefficients_witness :
    (∃ st2, Add 2 0 1 memEqual = .ok st2
        ∧ (st2.vars 2).len = max (memEqual.vars 2).len (memEqual.vars 0).len
        ∧ (∀ i, i < (memEqual.vars 0).len → st2.coeff (st2.vars 2) i
            = memEqual.coeff (memEqual.vars 0) i + memEqual.coeff (memEqual.vars 1) i)
        ∧ ∀ i, (memEqual.vars 0).len ≤ i → i < (memEqual.vars 2).len →
            st2.coeff (st2.vars 2) i = 0)
      ∧ (∃ st2, Sub 2 0 1 memEqual = .ok st2
        ∧ (st2.vars 2).len = max (memEqual.vars 2).len (memEqual.vars 0).len
        ∧ (∀ i, i < (memEqual.vars 0).len → st2.coeff (st2.vars 2) i
            = memEqual.coeff (memEqual.vars 0) i - memEqual.coeff (memEqual.vars 1) i)
        ∧ ∀ i, (memEqual.vars 0).len ≤ i → i < (memEqual.vars 2).len →
            st2.coeff (st2.vars 2) i = 0) :=
  Add_Sub_clear_stale_coefficients 2 0 1 memEqual (by decide) (by decide) (by decide)
    (by decide) (by decide) (Or.inr (by decide)) (Or.inr (by decide)) (by decide)

/-- Claim C19: `p.resize(p1, p2)` returns; afterwards the length of `p` is
`max(len p, len p1, len p2)`, the coefficients below the old length are
unchanged and every coefficient from the old length upward is zero.  The
count handed to `pad` is never negative: `pad` is reached only when the guard
of `resize` fails, and then the length of the longer operand is at least
`len p`. -/
theorem resize_pads_with_zeros [CommRing F] (p p1 p2 : Nat) (st : Mem F)
    (hv : st.Valid (st.vars p)) :
    (∃ st2, resize p (st.vars p1) (st.vars p2) st = .ok st2
        ∧ (st2.vars p).len
            = max (st.vars p).len (max (st.vars p1).len (st.vars p2).len)
        ∧ (∀ i, i < (st.vars p).len →
            st2.coeff (st2.vars p) i = st.coeff (st.vars p) i)
        ∧ ∀ i, (st.vars p).len ≤ i → st2.coeff (st2.vars p) i = 0)
      ∧ (¬((st.vars p).len > (st.vars p1).len ∧ (st.vars p).len > (st.vars p2).len) →
          0 ≤ ((sort (st.vars p1) (st.vars p2)).1.len : Int) - ((st.vars p).len : Int))
      ∧ ((st.vars p).len > (st.vars p1).len ∧ (st.vars p).len > (st.vars p2).len →
          resize p (st.vars p1) (st.vars p2) st = .ok st) := by
  refine ⟨?_, fun hg => ?_, fun hg => ?_⟩
  · obtain ⟨st2, hrun, hlen, _, hview, _, _, _⟩ :=
      resize_spec p (st.vars p1) (st.vars p2) st hv.1
    have hl : (st.view (st.vars p)).length = (st.vars p).len := view_length st _ hv
    refine ⟨st2, hrun, hlen, fun i hi => ?_, fun i hi => ?_⟩
    · unfold Mem.coeff
      rw [index_eq_view, index_eq_view, hview, List.getElem?_append_left (by omega)]
    · unfold Mem.coeff
      rw [index_eq_view, hview, List.getElem?_append_right (by omega),
        List.getElem?_replicate]
      split <;> rfl
  · rcases sort_cases (st.vars p1) (st.vars p2) with ⟨h1, _, h3⟩ | ⟨h1, _, h3⟩
    · rw [h1]; omega
    · rw [h1]; omega
  · unfold resize
    rw [if_pos hg]

/-- Witness for C19: the empty receiver `c` resized for `a` (length 4) and
`b` (length 8). -/
theorem resize_pads_with_zeros_witness :
    (∃ st2, resize 2 (memAB.vars 0) (memAB.vars 1) memAB = .ok st2
        ∧ (st2.vars 2).len
            = max (memAB.vars 2).len (max (memAB.vars 0).len (memAB.vars 1).len)
        ∧ (∀ i, i < (memAB.vars 2).len →
            st2.coeff (st2.vars 2) i = memAB.coeff (memAB.vars 2) i)
        ∧ ∀ i, (memAB.vars 2).len ≤ i → st2.coeff (st2.vars 2) i = 0)
      ∧ (¬((memAB.vars 2).len > (memAB.vars 0).len
            ∧ (memAB.vars 2).len > (memAB.vars 1).len) →
          0 ≤ ((sort (memAB.vars 0) (memAB.vars 1)).1.len : Int)
            - ((memAB.vars 2).len : Int))
      ∧ ((memAB.vars 2).len > (memAB.vars 0).len
            ∧ (memAB.vars 2).len > (memAB.vars 1).len →
          resize 2 (memAB.vars 0) (memAB.vars 1) memAB = .ok memAB) :=
  resize_pads_with_zeros 2 0 1 memAB (by decide)

/-- Claim C20 (fails on the code): with `a = [1,1,1,1]` and the empty
receiver `c`, a different variable with an array of its own, `c.Neg(&a)`
returns with `c` holding the header of `a`, so the two share the array, and
`a` itself then holds `[-1,-1,-1,-1]`. -/
theorem Neg_negates_its_operand :
    (memAB.vars 2).arr ≠ (memAB.vars 0).arr
      ∧ memAB.view (memAB.vars 0) = [1, 1, 1, 1]
      ∧ (Neg 2 0 memAB).isOk = true
      ∧ (Neg 2 0 memAB).mem.vars 2 = (Neg 2 0 memAB).mem.vars 0
      ∧ (Neg 2 0 memAB).mem.vars 0 = memAB.vars 0
      ∧ (Neg 2 0 memAB).mem.view ((Neg 2 0 memAB).mem.vars 0) = [-1, -1, -1, -1]
      ∧ (-1 : Fr) ≠ 1 := by
  decide

end LastClaims

end polynomial
